import Mathlib

/-!
Verification development for the `device_mapping` batch reconciliation
pipeline (src/device_mapping.py).  The Python source is shallowly embedded:
pure helpers (`extract_json`, `should_skip`, `clean_row_keys`) become Lean
functions over `List Char` / `String`; the provider calls are modelled as
parameters (functions from the request's label list to either a failure or a
record list), since the actual HTTP endpoints are external collaborators;
the orchestration in `main` becomes explicit list processing.
-/

namespace DeviceMapping

/-- JSON values, the result type of the Python `json.loads` call inside
`extract_json`.  Numbers are modelled as integers: the pipeline's only
numeric field is the integer `cpu_core`, and no claim exercises floats. -/
inductive Json where
  | null : Json
  | bool : Bool → Json
  | num : Int → Json
  | str : String → Json
  | arr : List Json → Json
  | obj : List (String × Json) → Json

/-- One structured provider result, per the InferenceRecord data model
(the seven fields required by the prompt template). -/
structure InferenceRecord where
  origin_device_model : String
  mapped_brand : Option String
  mapped_device_model : Option String
  cpu_name : Option String
  cpu_core : Option Int
  ram : Option String
  refresh_rate : Option String
deriving DecidableEq

/-- A merged output row: the primary (DeepSeek) record kept verbatim plus
the six `gemini_`-qualified fields added by `main`'s merge loop. -/
structure MergedRecord where
  primary : InferenceRecord
  gemini_mapped_brand : Option String
  gemini_mapped_device_model : Option String
  gemini_cpu_name : Option String
  gemini_cpu_core : Option Int
  gemini_ram : Option String
  gemini_refresh_rate : Option String
deriving DecidableEq

/-! ## Character utilities -/

/-- JSON inter-token whitespace (as accepted by `json.loads`). -/
def jsonWs (c : Char) : Bool :=
  c = ' ' || c = '\t' || c = '\n' || c = '\r'

/-- Skip JSON whitespace. -/
def skipWs (cs : List Char) : List Char :=
  cs.dropWhile jsonWs

/-- ASCII decimal digit. -/
def isDigitC (c : Char) : Bool :=
  48 ≤ c.toNat && c.toNat ≤ 57

/-- Numeric value of an ASCII digit. -/
def digitVal (c : Char) : Nat := c.toNat - 48

/-- Most-significant-first digit string folded to a natural number. -/
def digitsToNat (ds : List Char) : Nat :=
  ds.foldl (fun a c => a * 10 + digitVal c) 0

/-- Digit character of a value below ten. -/
def digitChar (n : Nat) : Char := Char.ofNat (48 + n)

/-- Decimal digits of `n`, most significant first, via repeated division;
the fuel argument (any bound above the digit count) keeps the recursion
structural. -/
def natDigitsGo : Nat → Nat → List Char → List Char
  | 0, _, acc => acc
  | f + 1, n, acc =>
    if n < 10 then digitChar n :: acc
    else natDigitsGo f (n / 10) (digitChar (n % 10) :: acc)

/-- Decimal representation of a natural number. -/
def natDigits (n : Nat) : List Char := natDigitsGo (n + 1) n []

/-- Decimal representation of an integer (no `-0`, no leading zeros),
as produced by `json.dumps` for Python ints. -/
def encInt (i : Int) : List Char :=
  if i < 0 then '-' :: natDigits i.natAbs else natDigits i.natAbs

/-! ## JSON string literals -/

/-- JSON escape shorthand accepted after a backslash (the subset used by
the pipeline's data; `\uXXXX` escapes are outside the model). -/
def unescape (c : Char) : Option Char :=
  if c = '"' then some '"'
  else if c = '\\' then some '\\'
  else if c = '/' then some '/'
  else if c = 'n' then some '\n'
  else if c = 't' then some '\t'
  else if c = 'r' then some '\r'
  else if c = 'b' then some (Char.ofNat 8)
  else if c = 'f' then some (Char.ofNat 12)
  else none

/-- Parse the body of a JSON string literal (the opening quote already
consumed); returns the decoded characters and the remaining input.  Raw
control characters are rejected, as in strict `json.loads`. -/
def parseStr : List Char → Option (List Char × List Char)
  | [] => none
  | c :: rest =>
    if c = '"' then some ([], rest)
    else if c = '\\' then
      match rest with
      | [] => none
      | e :: rest2 =>
        match unescape e with
        | none => none
        | some ec =>
          match parseStr rest2 with
          | none => none
          | some (s, r) => some (ec :: s, r)
    else if c.toNat < 32 then none
    else
      match parseStr rest with
      | none => none
      | some (s, r) => some (c :: s, r)

/-- Parse an unsigned JSON integer (nonempty digit run, no leading zero
unless the number is exactly `0`). -/
def parseNatNum (cs : List Char) : Option (Nat × List Char) :=
  let ds := cs.takeWhile isDigitC
  let rest := cs.dropWhile isDigitC
  if ds.isEmpty then none
  else if ds.head? = some '0' && ds.length != 1 then none
  else some (digitsToNat ds, rest)

/-- Parse a JSON integer with optional leading minus sign. -/
def parseNum (cs : List Char) : Option (Int × List Char) :=
  if cs.head? = some '-' then
    match parseNatNum cs.tail with
    | none => none
    | some (n, r) => some (-(n : Int), r)
  else
    match parseNatNum cs with
    | none => none
    | some (n, r) => some ((n : Int), r)

/-! ## The JSON value parser

A recursive-descent model of `json.loads` (restricted to the integer
subset of JSON numbers).  The fuel argument bounds the recursion; the
top-level entry point `parseJson` passes the input length plus one,
which always suffices. -/

mutual

def parseVal : Nat → List Char → Option (Json × List Char)
  | 0, _ => none
  | f + 1, cs =>
    match skipWs cs with
    | [] => none
    | c :: rest =>
      if c = '[' then
        match skipWs rest with
        | ']' :: r2 => some (.arr [], r2)
        | _ => parseElems f rest
      else if c = '{' then
        match skipWs rest with
        | '}' :: r2 => some (.obj [], r2)
        | _ => parseMembers f rest
      else if c = '"' then
        match parseStr rest with
        | none => none
        | some (s, r) => some (.str (String.mk s), r)
      else if c = 'n' then
        match rest with
        | 'u' :: 'l' :: 'l' :: r => some (.null, r)
        | _ => none
      else if c = 't' then
        match rest with
        | 'r' :: 'u' :: 'e' :: r => some (.bool true, r)
        | _ => none
      else if c = 'f' then
        match rest with
        | 'a' :: 'l' :: 's' :: 'e' :: r => some (.bool false, r)
        | _ => none
      else if c = '-' || isDigitC c then
        match parseNum (c :: rest) with
        | none => none
        | some (i, r) => some (.num i, r)
      else none

def parseElems : Nat → List Char → Option (Json × List Char)
  | 0, _ => none
  | f + 1, cs =>
    match parseVal f cs with
    | none => none
    | some (v, r) =>
      match skipWs r with
      | ',' :: r2 =>
        match parseElems f r2 with
        | none => none
        | some (.arr vs, r3) => some (.arr (v :: vs), r3)
        | some _ => none
      | ']' :: r2 => some (.arr [v], r2)
      | _ => none

def parseMembers : Nat → List Char → Option (Json × List Char)
  | 0, _ => none
  | f + 1, cs =>
    match skipWs cs with
    | '"' :: r0 =>
      match parseStr r0 with
      | none => none
      | some (k, r1) =>
        match skipWs r1 with
        | ':' :: r2 =>
          match parseVal f r2 with
          | none => none
          | some (v, r3) =>
            match skipWs r3 with
            | ',' :: r4 =>
              match parseMembers f r4 with
              | none => none
              | some (.obj ms, r5) => some (.obj ((String.mk k, v) :: ms), r5)
              | some _ => none
            | '}' :: r4 => some (.obj [(String.mk k, v)], r4)
            | _ => none
        | _ => none
    | _ => none

end

/-- Model of `json.loads`: parse one JSON value and require only
whitespace after it. -/
def parseJson (cs : List Char) : Option Json :=
  match parseVal (cs.length + 1) cs with
  | none => none
  | some (v, rest) => if (skipWs rest).isEmpty then some v else none

/-! ## The extractor (`extract_json` in the source) -/

/-- The two `ValueError`s raised by `extract_json` plus the
`json.JSONDecodeError` propagated out of `json.loads`. -/
inductive ExtractErr where
  | noArrayStart : ExtractErr
  | unterminated : ExtractErr
  | parseError : ExtractErr
deriving DecidableEq

/-- Whitespace stripped by Python's `str.strip()` (the ASCII subset that
occurs in provider responses). -/
def pyWs (c : Char) : Bool :=
  c = ' ' || c = '\t' || c = '\n' || c = '\r' || c = Char.ofNat 11 || c = Char.ofNat 12

/-- Strip `pyWs` from the left. -/
def trimL (cs : List Char) : List Char := cs.dropWhile pyWs

/-- Strip `pyWs` from the right. -/
def trimR (cs : List Char) : List Char := (cs.reverse.dropWhile pyWs).reverse

/-- Python `text.strip()`. -/
def pyStrip (cs : List Char) : List Char := trimR (trimL cs)

/-- `re.sub(r"^```json", "", text)`: remove a leading `` ```json `` tag. -/
def stripFence1 (t : List Char) : List Char :=
  if ("```json".toList).isPrefixOf t then t.drop 7 else t

/-- `re.sub(r"^```", "", text)`: remove a leading bare fence. -/
def stripFence2 (t : List Char) : List Char :=
  if ("```".toList).isPrefixOf t then t.drop 3 else t

/-- `re.sub(r"```$", "", text)`: remove a trailing fence (the text has
already been stripped, so `$` is the very end). -/
def stripFence3 (t : List Char) : List Char :=
  if ("```".toList).isSuffixOf t then t.take (t.length - 3) else t

/-- The fence-stripping prelude of `extract_json`: strip, then if the text
starts with a code fence remove an optional `` ```json `` opening tag (else
a bare opening fence), remove a closing fence, and strip again. -/
def stripFence (cs : List Char) : List Char :=
  if ("```".toList).isPrefixOf (pyStrip cs) then
    pyStrip (stripFence3 (stripFence2 (stripFence1 (pyStrip cs))))
  else pyStrip cs

/-- The bracket-depth scan of `extract_json`: starting at the first `[`
(the input is the suffix of the text from that character), accumulate
characters, incrementing the depth at `[` and decrementing at `]`; return
the candidate substring once the depth returns to zero, or `none` if it
never does (the `JSON 数组不完整` case). -/
def takeBalanced : List Char → Nat → Option (List Char)
  | [], _ => none
  | c :: rest, d =>
    if c = '[' then
      match takeBalanced rest (d + 1) with
      | none => none
      | some t => some (c :: t)
    else if c = ']' then
      if d = 1 then some [c]
      else
        match takeBalanced rest (d - 1) with
        | none => none
        | some t => some (c :: t)
    else
      match takeBalanced rest d with
      | none => none
      | some t => some (c :: t)

/-- The body of `extract_json` after fence stripping: locate the first
`[` (`text.find("[") == -1` iff everything before the end is skipped),
scan for the matching close, and `json.loads` the candidate. -/
def extractAfter (t : List Char) : Except ExtractErr Json :=
  if (t.dropWhile (fun c => !(c = '['))).isEmpty then .error .noArrayStart
  else
    match takeBalanced (t.dropWhile (fun c => !(c = '['))) 0 with
    | none => .error .unterminated
    | some cand =>
      match parseJson cand with
      | none => .error .parseError
      | some v => .ok v

/-- `extract_json` from the source: strip any code fence, find the first
`[`, take the bracket-balanced candidate substring and parse it.  Total:
each Python `raise` becomes an `Except.error`. -/
def extract_json (cs : List Char) : Except ExtractErr Json :=
  extractAfter (stripFence cs)

/-! ## A JSON encoder for InferenceRecord arrays

The round-trip property quantifies over "serializing" an array of
well-formed records; this encoder produces the canonical JSON text
(`json.dumps`-style, without inter-token spaces): an array of objects with
the seven prompt-template keys in order, strings escaped with `\"` and
`\\`. -/

/-- Escape `"` and `\` inside a JSON string body. -/
def escapeChars : List Char → List Char
  | [] => []
  | c :: r =>
    (if c = '"' then ['\\', '"'] else if c = '\\' then ['\\', '\\'] else [c]) ++
      escapeChars r

/-- Encode a JSON string literal. -/
def encStr (s : String) : List Char := '"' :: (escapeChars s.toList ++ ['"'])

/-- Encode a nullable string field. -/
def encOptStr : Option String → List Char
  | none => "null".toList
  | some s => encStr s

/-- Encode a nullable integer field. -/
def encOptInt : Option Int → List Char
  | none => "null".toList
  | some i => encInt i

/-- One object member `"key":value` followed by `tail` (the separator and
the rest of the object text). -/
def memberTail (key venc tail : List Char) : List Char :=
  '"' :: (key ++ ('"' :: ':' :: (venc ++ tail)))

def kOrigin : List Char := "origin_device_model".toList
def kBrand : List Char := "mapped_brand".toList
def kModel : List Char := "mapped_device_model".toList
def kCpuName : List Char := "cpu_name".toList
def kCpuCore : List Char := "cpu_core".toList
def kRam : List Char := "ram".toList
def kRefresh : List Char := "refresh_rate".toList

/-- The JSON object text of one record. -/
def encRec (r : InferenceRecord) : List Char :=
  '{' :: memberTail kOrigin (encStr r.origin_device_model) (',' ::
    memberTail kBrand (encOptStr r.mapped_brand) (',' ::
      memberTail kModel (encOptStr r.mapped_device_model) (',' ::
        memberTail kCpuName (encOptStr r.cpu_name) (',' ::
          memberTail kCpuCore (encOptInt r.cpu_core) (',' ::
            memberTail kRam (encOptStr r.ram) (',' ::
              memberTail kRefresh (encOptStr r.refresh_rate) ('}' :: [])))))))

/-- The element list of the array text (including the closing `]`). -/
def encElems : List InferenceRecord → List Char
  | [] => [']']
  | [r] => encRec r ++ [']']
  | r :: r2 :: rs => encRec r ++ (',' :: encElems (r2 :: rs))

/-- The JSON array text of a record list. -/
def encodeRecs (recs : List InferenceRecord) : List Char := '[' :: encElems recs

/-- JSON value of a nullable string. -/
def jOptStr : Option String → Json
  | none => .null
  | some s => .str s

/-- JSON value of a nullable integer. -/
def jOptInt : Option Int → Json
  | none => .null
  | some i => .num i

/-- The JSON value a record's object text denotes. -/
def recToJson (r : InferenceRecord) : Json :=
  .obj [("origin_device_model", .str r.origin_device_model),
    ("mapped_brand", jOptStr r.mapped_brand),
    ("mapped_device_model", jOptStr r.mapped_device_model),
    ("cpu_name", jOptStr r.cpu_name),
    ("cpu_core", jOptInt r.cpu_core),
    ("ram", jOptStr r.ram),
    ("refresh_rate", jOptStr r.refresh_rate)]

/-- The JSON value of a record array. -/
def recsToJson (recs : List InferenceRecord) : Json := .arr (recs.map recToJson)

/-- Characters allowed in a well-formed record's string fields: printable
(no raw control characters, which strict `json.loads` rejects) and not a
bracket (a bracket inside a string value derails the depth scan — the
behaviour claim C10 documents). -/
def wfChar (c : Char) : Bool := 32 ≤ c.toNat && !(c = '[') && !(c = ']')

def wfStr (s : String) : Bool := s.toList.all wfChar

def wfOpt : Option String → Bool
  | none => true
  | some s => wfStr s

/-- A well-formed record for the round-trip property. -/
def wellFormedRecord (r : InferenceRecord) : Bool :=
  wfStr r.origin_device_model && wfOpt r.mapped_brand &&
    wfOpt r.mapped_device_model && wfOpt r.cpu_name && wfOpt r.ram &&
    wfOpt r.refresh_rate

/-- The backquote character of a code fence. -/
def backquoteChar : Char := Char.ofNat 96

/-! ## The label filter (`should_skip` and helpers)

`is_pure_digit` is Python's `str.isdigit`.  Per the Python documentation a
character counts as a digit when its Unicode `Numeric_Type` is `Decimal`
or `Digit`; the two range tables below are modelled from `UnicodeData`
(category `Nd` for decimal, the `Numeric_Type=Digit` blocks for the
rest). -/

/-- Membership of a character's code point in a list of inclusive ranges. -/
def inRanges (rs : List (Nat × Nat)) (c : Char) : Bool :=
  rs.any (fun p => p.1 ≤ c.toNat && c.toNat ≤ p.2)

/-- Unicode general category `Nd` (decimal digits). -/
def ndRanges : List (Nat × Nat) :=
  [(0x30, 0x39), (0x660, 0x669), (0x6F0, 0x6F9), (0x7C0, 0x7C9),
   (0x966, 0x96F), (0x9E6, 0x9EF), (0xA66, 0xA6F), (0xAE6, 0xAEF),
   (0xB66, 0xB6F), (0xBE6, 0xBEF), (0xC66, 0xC6F), (0xCE6, 0xCEF),
   (0xD66, 0xD6F), (0xDE6, 0xDEF), (0xE50, 0xE59), (0xED0, 0xED9),
   (0xF20, 0xF29), (0x1040, 0x1049), (0x1090, 0x1099), (0x17E0, 0x17E9),
   (0x1810, 0x1819), (0x1946, 0x194F), (0x19D0, 0x19D9), (0x1A80, 0x1A89),
   (0x1A90, 0x1A99), (0x1B50, 0x1B59), (0x1BB0, 0x1BB9), (0x1C40, 0x1C49),
   (0x1C50, 0x1C59), (0xA620, 0xA629), (0xA8D0, 0xA8D9), (0xA900, 0xA909),
   (0xA9D0, 0xA9D9), (0xA9F0, 0xA9F9), (0xAA50, 0xAA59), (0xABF0, 0xABF9),
   (0xFF10, 0xFF19), (0x104A0, 0x104A9), (0x10D30, 0x10D39),
   (0x11066, 0x1106F), (0x110F0, 0x110F9), (0x11136, 0x1113F),
   (0x111D0, 0x111D9), (0x112F0, 0x112F9), (0x11450, 0x11459),
   (0x114D0, 0x114D9), (0x11650, 0x11659), (0x116C0, 0x116C9),
   (0x11730, 0x11739), (0x118E0, 0x118E9), (0x11950, 0x11959),
   (0x11C50, 0x11C59), (0x11D50, 0x11D59), (0x11DA0, 0x11DA9),
   (0x16A60, 0x16A69), (0x16AC0, 0x16AC9), (0x16B50, 0x16B59),
   (0x1D7CE, 0x1D7FF), (0x1E140, 0x1E149), (0x1E2F0, 0x1E2F9),
   (0x1E950, 0x1E959), (0x1FBF0, 0x1FBF9)]

/-- Unicode `Numeric_Type=Digit` blocks (digit characters that are not
decimal digits: superscripts, subscripts, circled digits, ...). -/
def digitOnlyRanges : List (Nat × Nat) :=
  [(0xB2, 0xB3), (0xB9, 0xB9), (0x1369, 0x1371), (0x19DA, 0x19DA),
   (0x2070, 0x2070), (0x2074, 0x2079), (0x2080, 0x2089),
   (0x2460, 0x2468), (0x2474, 0x247C), (0x2488, 0x2490),
   (0x24EA, 0x24EA), (0x24F5, 0x24FD), (0x2776, 0x277E),
   (0x2780, 0x2788), (0x278A, 0x2792), (0x10A40, 0x10A43),
   (0x1F100, 0x1F10A)]

/-- A decimal digit per Unicode (category `Nd`). -/
def ndChar (c : Char) : Bool := inRanges ndRanges c

/-- A character Python's `str.isdigit` accepts. -/
def pyDigitChar (c : Char) : Bool := inRanges ndRanges c || inRanges digitOnlyRanges c

/-- `is_pure_digit` from the source: `s.isdigit()` (false on the empty
string, else true iff every character is a Python digit). -/
def is_pure_digit (s : String) : Bool :=
  !s.isEmpty && s.toList.all pyDigitChar

/-- A CJK Unified Ideograph (the regex class `[一-鿿]`). -/
def cjkChar (c : Char) : Bool := 0x4e00 ≤ c.toNat && c.toNat ≤ 0x9fff

/-- `is_pure_chinese` from the source:
`re.fullmatch` of `[一-鿿]+` (nonempty, all CJK). -/
def is_pure_chinese (s : String) : Bool :=
  !s.isEmpty && s.toList.all cjkChar

/-- `should_skip` from the source: drop empty strings, strings of length
at most four, pure digit strings and pure CJK strings. -/
def should_skip (device : String) : Bool :=
  if device.isEmpty then true
  else if device.length ≤ 4 then true
  else if is_pure_digit device then true
  else if is_pure_chinese device then true
  else false

/-! ## Rows, dictionaries and the input phase -/

/-- Python-dict-style association list update: overwrite the value in
place if the key exists, else append. -/
def insertD {α : Type} : List (String × α) → String → α → List (String × α)
  | [], k, v => [(k, v)]
  | (k', v') :: t, k, v =>
    if k' = k then (k', v) :: t else (k', v') :: insertD t k v

/-- Association-list lookup (first match; `insertD` keeps keys unique). -/
def lookupKey {α : Type} : List (String × α) → String → Option α
  | [], _ => none
  | (k', v) :: t, k => if k' = k then some v else lookupKey t k

/-- Strip leading and trailing `"` characters (Python `.strip('"')`). -/
def stripQuotes (cs : List Char) : List Char :=
  ((cs.dropWhile (fun c => c = '"')).reverse.dropWhile (fun c => c = '"')).reverse

/-- Key normalisation used by `clean_row_keys`: `k.strip().strip('"')`. -/
def cleanKey (k : String) : String := String.mk (stripQuotes (pyStrip k.toList))

/-- `clean_row_keys` from the source: rebuild the row dict with
normalised keys (a Python dict comprehension, so later duplicate keys
overwrite earlier ones). -/
def clean_row_keys (row : List (String × String)) : List (String × String) :=
  row.foldl (fun m kv => insertD m (cleanKey kv.1) kv.2) []

/-- The device-collection loop of `main`: for each row take the
`origin_device_model` cell (skipping the row when the column is absent)
and keep it when it is non-falsy and not filtered out. -/
def readDevicesFrom (rows : List (List (String × String))) : List String :=
  rows.filterMap (fun row =>
    match lookupKey (clean_row_keys row) "origin_device_model" with
    | none => none
    | some d => if !d.isEmpty && !should_skip d then some d else none)

/-! ## Providers and the batch orchestrator -/

/-- `ProviderCallFailure` taxonomy: HTTP-level failures
(`resp.raise_for_status`, timeout, connection error) or a failure of
`extract_json` on the response text. -/
inductive ProviderFailure where
  | nonSuccessStatus : ProviderFailure
  | timeout : ProviderFailure
  | connectionError : ProviderFailure
  | extractionFailure : ExtractErr → ProviderFailure
deriving DecidableEq

/-- A provider call (`call_deepseek` / `call_gemini`): the request carries
an ordered list of device labels and either fails or yields the records
extracted from the response.  The services are external, so the call is a
parameter of the orchestration model. -/
def Provider : Type := List String → Except ProviderFailure (List InferenceRecord)

/-- `call_deepseek_safe` / `call_gemini_safe` from the source: call the
provider with the single label `[dev]`; any failure is swallowed and
contributes the empty record list. -/
def call_safe (call : Provider) (dev : String) : List InferenceRecord :=
  match call [dev] with
  | .ok rs => rs
  | .error _ => []

/-- `BATCH_SIZE` from the source. -/
def BATCH_SIZE : Nat := 5

/-- The batching loop `for i in range(0, len(devices), bs)` with
`batch = devices[i:i+bs]`: consecutive slices of size `bs` (the final one
possibly shorter).  `xs.tail.drop (bs - 1)` is `xs.drop bs` for the
positive `bs` the source uses; phrasing it through `tail` makes the
recursion well-founded. -/
def batches {α : Type} (bs : Nat) (xs : List α) : List (List α) :=
  if xs.isEmpty then []
  else xs.take bs :: batches bs (xs.tail.drop (bs - 1))
termination_by xs.length
decreasing_by
  cases xs with
  | nil => simp at *
  | cons a t => simp [List.length_drop]; omega

/-- `gm_map` from `main`: a dict comprehension keyed by
`origin_device_model` (structured records always carry the key, so the
`if "origin_device_model" in r` guard always passes). -/
def buildMap (rs : List InferenceRecord) : List (String × InferenceRecord) :=
  rs.foldl (fun m r => insertD m r.origin_device_model r) []

/-- The merge step of `main`'s write loop: keep the DeepSeek row and add
the six `gemini_`-prefixed fields, each `gm.get(...)` of the looked-up
Gemini record, or null when `gm_map` has no entry for the label. -/
def mergeRecord (gmMap : List (String × InferenceRecord)) (row : InferenceRecord) : MergedRecord :=
  match lookupKey gmMap row.origin_device_model with
  | some gm =>
    ⟨row, gm.mapped_brand, gm.mapped_device_model, gm.cpu_name, gm.cpu_core,
      gm.ram, gm.refresh_rate⟩
  | none => ⟨row, none, none, none, none, none, none⟩

/-- One iteration of `main`'s batch loop: collect the per-label DeepSeek
results and Gemini results (a failed call contributing `[]` via the safe
wrappers), then merge each DeepSeek row against `gm_map`.  The
thread-pool fan-in (`as_completed`) is serialised in submission order. -/
def processBatch (dsCall gmCall : Provider) (batch : List String) : List MergedRecord :=
  let ds_results := (batch.map (call_safe dsCall)).flatten
  let gm_results := (batch.map (call_safe gmCall)).flatten
  ds_results.map (mergeRecord (buildMap gm_results))

/-- The whole run over the filtered device list: sequential batches, each
produced by `processBatch`; the resulting rows in write order. -/
def processRun (dsCall gmCall : Provider) (devices : List String) : List MergedRecord :=
  ((batches BATCH_SIZE devices).map (processBatch dsCall gmCall)).flatten

/-- The argument lists handed to the per-label provider calls of a run:
one `executor.submit(call_deepseek_safe, dev)` per label of each batch,
and `call_deepseek_safe` calls `call_deepseek([dev])`. -/
def dispatched (devices : List String) : List (List String) :=
  ((batches BATCH_SIZE devices).map (fun batch => batch.map (fun dev => [dev]))).flatten

/-- Fatal input failure: `open(INPUT_CSV, ...)` raising before the batch
loop starts. -/
inductive InputError where
  | unreadable : InputError
deriving DecidableEq

/-- `main` up to its result rows: an unreadable input file (modelled as
`none`) aborts before any provider call; otherwise the rows are parsed,
filtered and processed.  No other step of `main` can fail. -/
def runPipeline (input : Option (List (List (String × String))))
    (dsCall gmCall : Provider) : Except InputError (List MergedRecord) :=
  match input with
  | none => .error .unreadable
  | some rows => .ok (processRun dsCall gmCall (readDevicesFrom rows))

/-! ## The output sink -/

/-- The column set of the run: the keys of the first written row, i.e. the
seven primary record fields in prompt order followed by the six
`gemini_`-qualified fields in the order `main` adds them. -/
def fieldNames : List String :=
  ["origin_device_model", "mapped_brand", "mapped_device_model", "cpu_name",
   "cpu_core", "ram", "refresh_rate", "gemini_mapped_brand",
   "gemini_mapped_device_model", "gemini_cpu_name", "gemini_cpu_core",
   "gemini_ram", "gemini_refresh_rate"]

/-- CSV cell of an optional string (`csv` writes `None` as the empty
cell). -/
def optCell : Option String → String
  | none => ""
  | some s => s

/-- CSV cell of an optional integer. -/
def intCell : Option Int → String
  | none => ""
  | some i => String.mk (encInt i)

/-- The CSV cells of one merged row, in `fieldNames` order. -/
def rowCells (m : MergedRecord) : List String :=
  [m.primary.origin_device_model, optCell m.primary.mapped_brand,
   optCell m.primary.mapped_device_model, optCell m.primary.cpu_name,
   intCell m.primary.cpu_core, optCell m.primary.ram,
   optCell m.primary.refresh_rate, optCell m.gemini_mapped_brand,
   optCell m.gemini_mapped_device_model, optCell m.gemini_cpu_name,
   intCell m.gemini_cpu_core, optCell m.gemini_ram,
   optCell m.gemini_refresh_rate]

/-- The output file at the end of a run, as a list of CSV lines.
`existing` is the file found at startup (`none`: did not exist; `some ls`:
existed with lines `ls`).  The file is opened in append mode; a header is
written just before the first row when `file_exists` was false (the
source checks `output_file.exists()`, regardless of content). -/
def writeOutput (existing : Option (List (List String))) (rows : List MergedRecord) :
    List (List String) :=
  (existing.getD []) ++
    (if existing.isNone && !rows.isEmpty then [fieldNames] else []) ++
    rows.map rowCells

/-- A sample well-formed record (the prompt template's worked example). -/
def sampleRecord : InferenceRecord :=
  ⟨"TAS-AN00", some "Huawei", some "Mate 30", some "Kirin 990", some 8,
    some "8 GB", some "60 Hz"⟩

/-- A concrete provider that fails (times out) exactly on the label
`"BAD01"` and otherwise answers with the sample record. -/
def flakyProvider : Provider :=
  fun req => if req = ["BAD01"] then .error .timeout else .ok [sampleRecord]

/-- The four drop conditions exactly as the claim states them, with
"decimal digits" read as Unicode decimal digits (category `Nd`). -/
def claimDropConditions (s : String) : Bool :=
  s.isEmpty || s.length ≤ 4 ||
    (!s.isEmpty && s.toList.all ndChar) ||
    (!s.isEmpty && s.toList.all cjkChar)

/-- The four drop conditions with condition 3 amended to Python's
`str.isdigit` character class (Unicode `Numeric_Type` `Decimal` or
`Digit`), which is what the source tests. -/
def amendedDropConditions (s : String) : Bool :=
  s.isEmpty || s.length ≤ 4 ||
    (!s.isEmpty && s.toList.all pyDigitChar) ||
    (!s.isEmpty && s.toList.all cjkChar)

/-- The default merged record used in concrete output examples. -/
def sampleMerged : MergedRecord :=
  ⟨sampleRecord, none, none, none, none, none, none⟩

/-- A bracket character (the only characters the depth scan reacts to). -/
def isBr (c : Char) : Bool := c = '[' || c = ']'

/-- The claim's wording of the depth loop: scanning from the first `[`
(the argument is that suffix of the text), does the nesting depth ever
return to zero? -/
def scanCloses : List Char → Nat → Bool
  | [], _ => false
  | c :: rest, d =>
    if c = '[' then scanCloses rest (d + 1)
    else if c = ']' then (if d = 1 then true else scanCloses rest (d - 1))
    else scanCloses rest d

/-- A printable, escape-free key (all seven prompt keys qualify). -/
abbrev plainKey (key : List Char) : Prop :=
  ∀ c ∈ key, 32 ≤ c.toNat ∧ ¬ c = '"' ∧ ¬ c = '\\'

/-! ## Lemmas about the batching loop -/

theorem batches_nil {α : Type} (bs : Nat) : batches bs ([] : List α) = [] := by
  rw [batches]
  rfl

theorem batches_cons {α : Type} (bs : Nat) (a : α) (t : List α) :
    batches bs (a :: t) = (a :: t).take bs :: batches bs (t.drop (bs - 1)) := by
  rw [batches]
  rfl

theorem batches_ne_nil {α : Type} (bs : Nat) (a : α) (t : List α) :
    batches bs (a :: t) ≠ [] := by
  rw [batches_cons]
  simp

theorem batches_flatten {α : Type} (m : Nat) :
    ∀ (xs : List α), (batches (m + 1) xs).flatten = xs := by
  have H : ∀ (n : Nat) (xs : List α), xs.length ≤ n → (batches (m + 1) xs).flatten = xs := by
    intro n
    induction n with
    | zero =>
      intro xs h
      have hx : xs = [] := by cases xs <;> simp_all
      subst hx
      simp [batches_nil]
    | succ n ih =>
      intro xs h
      cases xs with
      | nil => simp [batches_nil]
      | cons a t =>
        rw [batches_cons]
        have ht : (t.drop (m + 1 - 1)).length ≤ n := by
          simp only [List.length_drop]
          simp at h
          omega
        simp only [List.flatten_cons, ih _ ht]
        simp [List.take_cons]
  intro xs
  exact H xs.length xs le_rfl

theorem batches_length {α : Type} :
    ∀ (xs : List α), (batches 5 xs).length = (xs.length + 4) / 5 := by
  have H : ∀ (n : Nat) (xs : List α), xs.length ≤ n →
      (batches 5 xs).length = (xs.length + 4) / 5 := by
    intro n
    induction n with
    | zero =>
      intro xs h
      have hx : xs = [] := by cases xs <;> simp_all
      subst hx
      simp [batches_nil]
    | succ n ih =>
      intro xs h
      cases xs with
      | nil => simp [batches_nil]
      | cons a t =>
        rw [batches_cons]
        have ht : (t.drop 4).length ≤ n := by
          simp only [List.length_drop]
          simp at h
          omega
        simp only [List.length_cons, ih _ ht, List.length_drop]
        omega
  intro xs
  exact H xs.length xs le_rfl

theorem batches_sizes {α : Type} :
    ∀ (xs : List α), ∀ b ∈ batches 5 xs, 0 < b.length ∧ b.length ≤ 5 := by
  have H : ∀ (n : Nat) (xs : List α), xs.length ≤ n →
      ∀ b ∈ batches 5 xs, 0 < b.length ∧ b.length ≤ 5 := by
    intro n
    induction n with
    | zero =>
      intro xs h
      have hx : xs = [] := by cases xs <;> simp_all
      subst hx
      simp [batches_nil]
    | succ n ih =>
      intro xs h
      cases xs with
      | nil => simp [batches_nil]
      | cons a t =>
        rw [batches_cons]
        intro b hb
        rcases List.mem_cons.mp hb with hb | hb
        · subst hb
          simp only [List.length_take, List.length_cons]
          omega
        · have ht : (t.drop 4).length ≤ n := by
            simp only [List.length_drop]
            simp at h
            omega
          exact ih _ ht b hb
  intro xs
  exact H xs.length xs le_rfl

theorem batches_full_sizes {α : Type} :
    ∀ (xs : List α), ∀ b ∈ (batches 5 xs).dropLast, b.length = 5 := by
  have H : ∀ (n : Nat) (xs : List α), xs.length ≤ n →
      ∀ b ∈ (batches 5 xs).dropLast, b.length = 5 := by
    intro n
    induction n with
    | zero =>
      intro xs h
      have hx : xs = [] := by cases xs <;> simp_all
      subst hx
      simp [batches_nil]
    | succ n ih =>
      intro xs h
      cases xs with
      | nil => simp [batches_nil]
      | cons a t =>
        rw [batches_cons]
        have ht : (t.drop 4).length ≤ n := by
          simp only [List.length_drop]
          simp at h
          omega
        cases hrest : batches 5 (t.drop 4) with
        | nil => simp
        | cons y l =>
          rw [List.dropLast_cons_of_ne_nil (by simp)]
          intro b hb
          rcases List.mem_cons.mp hb with hb | hb
          · subst hb
            have hlen : 4 < t.length := by
              by_contra hc
              push_neg at hc
              have : t.drop 4 = [] := by
                apply List.eq_nil_of_length_eq_zero
                simp only [List.length_drop]
                omega
              rw [this, batches_nil] at hrest
              exact List.noConfusion hrest
            simp only [List.length_take, List.length_cons]
            omega
          · rw [← hrest] at hb
            exact ih _ ht b hb
  intro xs
  exact H xs.length xs le_rfl

/-! ## C5: batching behaviour -/

/-- C5: the orchestrator partitions the filtered label list in input order
into `⌈n/5⌉` consecutive batches, each of size 5 except possibly a shorter
final batch, and each provider call dispatched within a batch carries
exactly one label, with each label dispatched exactly once per provider
(the dispatched argument lists are precisely one singleton per device, in
order). -/
theorem c5_batching (devices : List String) :
    (batches BATCH_SIZE devices).length = (devices.length + 4) / 5 ∧
    (batches BATCH_SIZE devices).flatten = devices ∧
    (∀ b ∈ (batches BATCH_SIZE devices).dropLast, b.length = 5) ∧
    (∀ b ∈ batches BATCH_SIZE devices, 0 < b.length ∧ b.length ≤ 5) ∧
    dispatched devices = devices.map (fun d => [d]) := by
  refine ⟨batches_length devices, batches_flatten 4 devices,
    batches_full_sizes devices, batches_sizes devices, ?_⟩
  have h := congrArg (List.map (fun d : String => [d])) (batches_flatten 4 devices)
  rw [List.map_flatten] at h
  exact h

/-- Witness for C5 at a concrete input: seven valid labels produce exactly
two batches, the first of size 5. -/
theorem c5_witness :
    (batches BATCH_SIZE ["AAAAA", "BBBBB", "CCCCC", "DDDDD", "EEEEE", "FFFFF", "GGGGG"]).length = 2 ∧
    (["AAAAA", "BBBBB", "CCCCC", "DDDDD", "EEEEE"] : List String).length = 5 := by
  have h := c5_batching ["AAAAA", "BBBBB", "CCCCC", "DDDDD", "EEEEE", "FFFFF", "GGGGG"]
  constructor
  · rw [h.1]
    rfl
  · have hb : batches BATCH_SIZE ["AAAAA", "BBBBB", "CCCCC", "DDDDD", "EEEEE", "FFFFF", "GGGGG"] =
        [["AAAAA", "BBBBB", "CCCCC", "DDDDD", "EEEEE"], ["FFFFF", "GGGGG"]] := by
      show batches 5 _ = _
      rw [batches_cons]
      norm_num
      rw [batches_cons]
      norm_num
      exact batches_nil 5
    refine h.2.2.1 _ ?_
    rw [hb]
    simp

/-! ## C1: per-label failure isolation -/

/-- The per-batch fan-in: each label's safe call contributes its record
list (empty on failure), concatenated. -/
theorem collect_eq_successes (call : Provider) (batch : List String) :
    (batch.map (call_safe call)).flatten =
      ((batch.filterMap (fun dev => (call [dev]).toOption)).flatten) := by
  induction batch with
  | nil => rfl
  | cons dev t ih =>
    simp only [List.map_cons, List.filterMap_cons]
    cases h : call [dev] with
    | ok rs => simp [call_safe, h, ih, Except.toOption]
    | error e => simp [call_safe, h, ih, Except.toOption]

/-- Replacing a provider by its recovered (never-failing) version does not
change what the safe wrapper returns. -/
theorem call_safe_recover (call : Provider) :
    call_safe (fun req => Except.ok ((call req).toOption.getD [])) = call_safe call := by
  funext dev
  unfold call_safe
  cases h : call [dev] <;> simp [h, Except.toOption]

/-- C1: for every device label, a failed provider call makes the safe
wrapper return the empty record list instead of raising; the batch's
collected result is the concatenation of the successful calls' record
lists; and the whole run computes exactly what it would with providers
whose every call succeeds with the recovered value — failures never abort
the batch or the run. -/
theorem c1_safe_wrapper_isolation (dsCall gmCall : Provider) (batch devices : List String) :
    (∀ dev, (∃ e, dsCall [dev] = .error e) → call_safe dsCall dev = []) ∧
    (batch.map (call_safe dsCall)).flatten =
      ((batch.filterMap (fun dev => (dsCall [dev]).toOption)).flatten) ∧
    processRun dsCall gmCall devices =
      processRun (fun req => Except.ok ((dsCall req).toOption.getD []))
        (fun req => Except.ok ((gmCall req).toOption.getD [])) devices := by
  refine ⟨?_, collect_eq_successes dsCall batch, ?_⟩
  · intro dev ⟨e, he⟩
    unfold call_safe
    rw [he]
  · unfold processRun processBatch
    rw [call_safe_recover dsCall, call_safe_recover gmCall]

/-- Witness for C1 at a concrete provider: the call for `"BAD01"` times
out and contributes `[]`, and the collected batch result is the
concatenation of the successful calls' record lists. -/
theorem c1_witness :
    call_safe flakyProvider "BAD01" = [] ∧
    (["GOOD1", "BAD01"].map (call_safe flakyProvider)).flatten =
      ((["GOOD1", "BAD01"].filterMap (fun dev => (flakyProvider [dev]).toOption)).flatten) := by
  have h := c1_safe_wrapper_isolation flakyProvider (fun _ => .ok []) ["GOOD1", "BAD01"] []
  exact ⟨h.1 "BAD01" ⟨.timeout, rfl⟩, h.2.1⟩

/-! ## C2: the reconciler merge -/

theorem lookupKey_insertD {α : Type} (m : List (String × α)) (k k' : String) (v : α) :
    lookupKey (insertD m k v) k' = if k = k' then some v else lookupKey m k' := by
  induction m with
  | nil => simp [insertD, lookupKey]
  | cons kv t ih =>
    obtain ⟨k0, v0⟩ := kv
    by_cases h0 : k0 = k
    · subst h0
      by_cases h1 : k0 = k' <;> simp [insertD, lookupKey, h1]
    · by_cases h1 : k0 = k'
      · subst h1
        have : ¬ k = k0 := fun h => h0 h.symm
        simp [insertD, h0, lookupKey, this]
      · simp [insertD, h0, lookupKey, h1, ih]

theorem getLast?_cons_or {α : Type} (a : α) (l : List α) :
    (a :: l).getLast? = (l.getLast?).or (some a) := by
  induction l generalizing a with
  | nil => rfl
  | cons b t ih =>
    rw [List.getLast?_cons_cons, ih b]
    cases h : t.getLast? <;> simp [ih]

/-- The dict comprehension building `gm_map` realises last-write-wins:
looking a label up finds the last matching record of the list. -/
theorem lookupKey_buildMap (rs : List InferenceRecord) (k : String) :
    lookupKey (buildMap rs) k =
      (rs.filter (fun r => r.origin_device_model = k)).getLast? := by
  have H : ∀ (rs : List InferenceRecord) (m : List (String × InferenceRecord)),
      lookupKey (rs.foldl (fun m r => insertD m r.origin_device_model r) m) k =
        ((rs.filter (fun r => r.origin_device_model = k)).getLast?).or (lookupKey m k) := by
    intro rs
    induction rs with
    | nil => intro m; simp
    | cons r t ih =>
      intro m
      simp only [List.foldl_cons]
      rw [ih]
      by_cases h : r.origin_device_model = k
      · have hf : (r :: t).filter (fun r => r.origin_device_model = k) =
            r :: t.filter (fun r => r.origin_device_model = k) := by simp [h]
        rw [hf, getLast?_cons_or, Option.or_assoc, lookupKey_insertD, if_pos h]
        rfl
      · have hf : (r :: t).filter (fun r => r.origin_device_model = k) =
            t.filter (fun r => r.origin_device_model = k) := by simp [h]
        rw [hf, lookupKey_insertD, if_neg h]
  have h := H rs []
  simpa [lookupKey] using h

/-- C2: the merged record keeps the primary record verbatim and each of
the six secondary-qualified fields equals the corresponding field of the
last secondary record whose `origin_device_model` matches the primary's
(none when no secondary record matches — in particular for an empty
secondary list). -/
theorem c2_reconciler_merge (p : InferenceRecord) (gmList : List InferenceRecord) :
    (mergeRecord (buildMap gmList) p).primary = p ∧
    (mergeRecord (buildMap gmList) p).gemini_mapped_brand =
      ((gmList.filter (fun r => r.origin_device_model = p.origin_device_model)).getLast?).bind
        (fun g => g.mapped_brand) ∧
    (mergeRecord (buildMap gmList) p).gemini_mapped_device_model =
      ((gmList.filter (fun r => r.origin_device_model = p.origin_device_model)).getLast?).bind
        (fun g => g.mapped_device_model) ∧
    (mergeRecord (buildMap gmList) p).gemini_cpu_name =
      ((gmList.filter (fun r => r.origin_device_model = p.origin_device_model)).getLast?).bind
        (fun g => g.cpu_name) ∧
    (mergeRecord (buildMap gmList) p).gemini_cpu_core =
      ((gmList.filter (fun r => r.origin_device_model = p.origin_device_model)).getLast?).bind
        (fun g => g.cpu_core) ∧
    (mergeRecord (buildMap gmList) p).gemini_ram =
      ((gmList.filter (fun r => r.origin_device_model = p.origin_device_model)).getLast?).bind
        (fun g => g.ram) ∧
    (mergeRecord (buildMap gmList) p).gemini_refresh_rate =
      ((gmList.filter (fun r => r.origin_device_model = p.origin_device_model)).getLast?).bind
        (fun g => g.refresh_rate) := by
  unfold mergeRecord
  rw [lookupKey_buildMap]
  cases (gmList.filter (fun r => r.origin_device_model = p.origin_device_model)).getLast? <;>
    simp

/-! ## C4: the label filter -/

/-- Counterexample to C4 as stated: `"²²²²²"` (five superscript-two
characters) is dropped by the filter, yet none of the claim's four
conditions holds for it — it is nonempty, five characters long, not all
decimal digits and not all CJK.  (`'²'` has Unicode `Numeric_Type=Digit`,
so Python's `str.isdigit` accepts it although it is not a decimal
digit.) -/
theorem c4_counterexample :
    should_skip "²²²²²" = true ∧ claimDropConditions "²²²²²" = false := by
  constructor <;> decide

/-- C4 (amended): the Label Filter drops a string if and only if it is
empty, of length at most four, entirely Python-digit characters
(`str.isdigit`: Unicode decimal digits or other digit characters), or
entirely CJK Unified Ideographs; the decision is a pure predicate.  The
claim's worked examples hold. -/
theorem c4_filter_amended :
    (∀ s : String, should_skip s = amendedDropConditions s) ∧
    should_skip "1234" = true ∧
    should_skip "12345678" = true ∧
    should_skip "中文设备名" = true ∧
    should_skip "TAS-AN00" = false := by
  refine ⟨?_, by decide, by decide, by decide, by decide⟩
  intro s
  simp only [should_skip, amendedDropConditions, is_pure_digit, is_pure_chinese,
    String.toList]
  by_cases h1 : s.isEmpty <;> by_cases h2 : s.length ≤ 4 <;>
    by_cases h3 : s.data.all pyDigitChar <;> by_cases h4 : s.data.all cjkChar <;>
    simp [h1, h2, h3, h4]

/-! ## C10: brackets inside string literals confuse the scan -/

/-- C10: the depth scan counts brackets inside JSON string literals, so on
the text `["a]"]` the candidate substring ends at the `]` inside the
string — the scan returns `["a]` — and parsing that candidate fails, so
extraction errors instead of returning the one-element array. -/
theorem c10_bracket_in_string :
    takeBalanced ('[' :: '"' :: 'a' :: ']' :: '"' :: ']' :: []) 0 =
      some ('[' :: '"' :: 'a' :: ']' :: []) ∧
    extract_json ('[' :: '"' :: 'a' :: ']' :: '"' :: ']' :: []) = .error .parseError := by
  constructor <;> rfl

/-! ## C8: input errors -/

/-- Counterexample to C8 as stated: an input file whose rows lack the
`origin_device_model` column does not abort the run.  Every row is
skipped, zero devices are collected, and the run completes normally with
an empty row list (also making zero provider calls, since there is no
batch). -/
theorem c8_counterexample :
    runPipeline (some [[("brand", "xphone")]]) (fun _ => .ok [sampleRecord])
      (fun _ => .ok [sampleRecord]) = .ok [] := by
  show Except.ok (processRun _ _ (readDevicesFrom [[("brand", "xphone")]])) = .ok []
  have h1 : readDevicesFrom [[("brand", "xphone")]] = [] := rfl
  rw [h1]
  unfold processRun
  rw [batches_nil]
  rfl

/-- C8 (amended): an unreadable input file makes the run fail with
`InputFormatError` before any provider call (the error is independent of
the providers); a missing `origin_device_model` column, however, does not
abort — each such row contributes no device, so the run completes with an
empty result (and, having no batch, performs no provider call). -/
theorem c8_input_amended :
    (∀ dsCall gmCall : Provider, runPipeline none dsCall gmCall = .error .unreadable) ∧
    (∀ (rows : List (List (String × String))) (dsCall gmCall : Provider),
      (∀ row ∈ rows, lookupKey (clean_row_keys row) "origin_device_model" = none) →
      runPipeline (some rows) dsCall gmCall = .ok []) := by
  constructor
  · intro dsCall gmCall
    rfl
  · intro rows dsCall gmCall h
    show Except.ok (processRun _ _ (readDevicesFrom rows)) = .ok []
    have h1 : readDevicesFrom rows = [] := by
      unfold readDevicesFrom
      rw [List.filterMap_eq_nil_iff]
      intro row hr
      rw [h row hr]
    rw [h1]
    unfold processRun
    rw [batches_nil]
    rfl

/-- Witness for C8 at concrete inputs: the unreadable case errors, and a
two-column row set without the required column yields a completed empty
run. -/
theorem c8_witness :
    runPipeline none flakyProvider flakyProvider = .error .unreadable ∧
    runPipeline (some [[("id", "1"), ("name", "y")]]) flakyProvider flakyProvider = .ok [] := by
  refine ⟨c8_input_amended.1 flakyProvider flakyProvider,
    c8_input_amended.2 [[("id", "1"), ("name", "y")]] flakyProvider flakyProvider ?_⟩
  intro row hr
  simp only [List.mem_singleton] at hr
  subst hr
  rfl

/-! ## C7: output row count -/

/-- The merge step never changes the primary record. -/
theorem mergeRecord_primary (gmMap : List (String × InferenceRecord)) (row : InferenceRecord) :
    (mergeRecord gmMap row).primary = row := by
  unfold mergeRecord
  cases lookupKey gmMap row.origin_device_model <;> rfl

/-- Counterexample to C7 as stated: when Provider A answers the single
label `"ABCDE"` with two records, two output rows are written although
only one distinct label received a Provider-A record, so the row count
exceeds the number of such labels. -/
theorem c7_counterexample :
    ¬ ((processRun (fun _ => .ok [sampleRecord, sampleRecord]) (fun _ => .ok []) ["ABCDE"]).length ≤
      ((["ABCDE"].filter (fun d =>
        !(call_safe (fun _ => .ok [sampleRecord, sampleRecord]) d).isEmpty)).dedup).length) := by
  have hb : batches BATCH_SIZE ["ABCDE"] = [["ABCDE"]] := by
    show batches 5 _ = _
    rw [batches_cons]
    norm_num
    exact batches_nil 5
  unfold processRun
  rw [hb]
  decide

/-- C7 (amended): the number of output rows equals the total number of
records Provider A returned across the run's safe calls (so duplicate or
multi-record answers each produce a row), and a label for which Provider A
returned no record — in particular one answered only by Provider B —
produces no output row. -/
theorem c7_row_count_amended (dsCall gmCall : Provider) (devices : List String) :
    (processRun dsCall gmCall devices).length =
      (devices.map (fun d => (call_safe dsCall d).length)).sum ∧
    (∀ l : String, (∀ d ∈ devices, ∀ r ∈ call_safe dsCall d, r.origin_device_model ≠ l) →
      ∀ m ∈ processRun dsCall gmCall devices, m.primary.origin_device_model ≠ l) := by
  constructor
  · unfold processRun processBatch
    rw [List.length_flatten]
    simp only [List.map_map, Function.comp_def, List.length_map, List.length_flatten]
    have h : ∀ L : List (List String),
        (L.map (fun b => ((b.map (fun d => (call_safe dsCall d).length)).sum))).sum =
          ((L.flatten.map (fun d => (call_safe dsCall d).length)).sum) := by
      intro L
      induction L with
      | nil => rfl
      | cons b t ih => simp [ih]
    have hbf : (batches BATCH_SIZE devices).flatten = devices := batches_flatten 4 devices
    have h2 := h (batches BATCH_SIZE devices)
    rw [hbf] at h2
    exact h2
  · intro l hl m hm
    unfold processRun at hm
    rw [List.mem_flatten] at hm
    obtain ⟨rows, hrows, hm⟩ := hm
    rw [List.mem_map] at hrows
    obtain ⟨b, hb, rfl⟩ := hrows
    unfold processBatch at hm
    rw [List.mem_map] at hm
    obtain ⟨row, hrow, rfl⟩ := hm
    rw [List.mem_flatten] at hrow
    obtain ⟨rs, hrs, hrow⟩ := hrow
    rw [List.mem_map] at hrs
    obtain ⟨d, hd, rfl⟩ := hrs
    have hdev : d ∈ devices := by
      rw [← batches_flatten 4 devices]
      exact List.mem_flatten_of_mem hb hd
    rw [mergeRecord_primary]
    exact hl d hdev row hrow

/-- Witness for C7 at concrete inputs: a two-label run with one record per
label writes two rows, and no row carries a label neither provider
answered. -/
theorem c7_witness :
    (processRun (fun _ => .ok [sampleRecord]) (fun _ => .ok []) ["ABCDE", "FGHIJ"]).length =
      ((["ABCDE", "FGHIJ"].map (fun d =>
        (call_safe (fun _ => .ok [sampleRecord]) d).length)).sum) ∧
    (∀ m ∈ processRun (fun _ => .ok [sampleRecord]) (fun _ => .ok []) ["ABCDE", "FGHIJ"],
      m.primary.origin_device_model ≠ "ZZZZZ") := by
  refine ⟨(c7_row_count_amended (fun _ => .ok [sampleRecord]) (fun _ => .ok []) ["ABCDE", "FGHIJ"]).1,
    (c7_row_count_amended (fun _ => .ok [sampleRecord]) (fun _ => .ok []) ["ABCDE", "FGHIJ"]).2
      "ZZZZZ" ?_⟩
  intro d _ r hr
  simp only [call_safe, List.mem_singleton] at hr
  subst hr
  decide

/-! ## C9: the output sink -/

/-- Counterexample to C9 as stated: when the output file already existed
but was empty (no content), the claim requires a header (the file did not
"exist with content"), yet the source checks bare existence and writes no
header: the file afterwards holds exactly the data row. -/
theorem c9_counterexample :
    writeOutput (some []) [sampleMerged] = [rowCells sampleMerged] ∧
    rowCells sampleMerged ≠ fieldNames := by
  constructor
  · rfl
  · decide

/-- C9 (amended): the run appends to the output file (the prior content is
a prefix of the final content); the newly written lines are a header —
present if and only if the file did not exist at startup and at least one
row is written — followed by the data rows; and every data row has
exactly the column set fixed by the first row's keys (the 13 fields of
`fieldNames`). -/
theorem c9_output_amended (existing : Option (List (List String))) (rows : List MergedRecord) :
    (writeOutput existing rows).take (existing.getD []).length = existing.getD [] ∧
    (writeOutput existing rows).drop (existing.getD []).length =
      (if existing.isNone && !rows.isEmpty then [fieldNames] else []) ++ rows.map rowCells ∧
    (∀ m ∈ rows, (rowCells m).length = fieldNames.length) := by
  refine ⟨?_, ?_, ?_⟩
  · unfold writeOutput
    rw [List.append_assoc, List.take_left]
  · unfold writeOutput
    rw [List.append_assoc, List.drop_left]
  · intro m _
    rfl

/-- Witness for C9 at a concrete input: a fresh file receives the header
followed by the row, and the row has the full 13-column set. -/
theorem c9_witness :
    (writeOutput none [sampleMerged]).take 0 = ([] : List (List String)) ∧
    (writeOutput none [sampleMerged]).drop 0 = [fieldNames, rowCells sampleMerged] ∧
    (rowCells sampleMerged).length = fieldNames.length := by
  have h := c9_output_amended none [sampleMerged]
  exact ⟨h.1, h.2.1, h.2.2 sampleMerged (by simp)⟩

/-! ## C3: extractor failure cases

The claim states its depth condition on the input text; `extract_json`
scans the fence-stripped text.  The bridge: the scan outcome depends only
on the subsequence of bracket characters, which fence stripping never
touches. -/

theorem takeBalanced_isSome (cs : List Char) :
    ∀ d, (takeBalanced cs d).isSome = scanCloses cs d := by
  induction cs with
  | nil => intro d; rfl
  | cons c rest ih =>
    intro d
    by_cases h1 : c = '['
    · simp only [takeBalanced, scanCloses, if_pos h1]
      cases hin : takeBalanced rest (d + 1) <;> simp [hin, ← ih (d + 1)]
    · by_cases h2 : c = ']'
      · simp only [takeBalanced, scanCloses, if_neg h1, if_pos h2]
        by_cases h3 : d = 1
        · simp [h3]
        · simp only [if_neg h3]
          cases hin : takeBalanced rest (d - 1) <;> simp [hin, ← ih (d - 1)]
      · simp only [takeBalanced, scanCloses, if_neg h1, if_neg h2]
        cases hin : takeBalanced rest d <;> simp [hin, ← ih d]

theorem takeBalanced_eq_none (cs : List Char) (d : Nat) :
    takeBalanced cs d = none ↔ scanCloses cs d = false := by
  rw [← takeBalanced_isSome]
  cases takeBalanced cs d <;> simp

/-- The scan sees only brackets. -/
theorem scanCloses_filterBr (cs : List Char) :
    ∀ d, scanCloses (cs.filter isBr) d = scanCloses cs d := by
  induction cs with
  | nil => intro d; rfl
  | cons c rest ih =>
    intro d
    by_cases h1 : c = '['
    · have hb : isBr c = true := by simp [isBr, h1]
      simp [scanCloses, h1, hb, ih]
    · by_cases h2 : c = ']'
      · have hb : isBr c = true := by simp [isBr, h2]
        simp [scanCloses, h1, h2, hb, ih]
      · have hb : isBr c = false := by simp [isBr, h1, h2]
        simp [scanCloses, h1, h2, hb, ih]

theorem filter_dropWhile_of_disjoint (p q : Char → Bool)
    (hpq : ∀ c, p c = true → q c = false) :
    ∀ cs : List Char, (cs.dropWhile p).filter q = cs.filter q := by
  intro cs
  induction cs with
  | nil => rfl
  | cons c rest ih =>
    by_cases hp : p c = true
    · rw [List.dropWhile_cons_of_pos hp, ih, List.filter_cons, hpq c hp]
      simp
    · rw [List.dropWhile_cons_of_neg (by simp_all)]

theorem pyWs_not_isBr : ∀ c : Char, pyWs c = true → isBr c = false := by
  intro c hc
  simp only [pyWs, Bool.or_eq_true, decide_eq_true_eq] at hc
  rcases hc with ((((h | h) | h) | h) | h) | h <;> subst h <;> rfl

theorem filterBr_trimL (cs : List Char) : (trimL cs).filter isBr = cs.filter isBr :=
  filter_dropWhile_of_disjoint pyWs isBr pyWs_not_isBr cs

theorem filterBr_trimR (cs : List Char) : (trimR cs).filter isBr = cs.filter isBr := by
  unfold trimR
  rw [List.filter_reverse, filter_dropWhile_of_disjoint pyWs isBr pyWs_not_isBr,
    List.filter_reverse, List.reverse_reverse]

theorem filterBr_pyStrip (cs : List Char) : (pyStrip cs).filter isBr = cs.filter isBr := by
  unfold pyStrip
  rw [filterBr_trimR, filterBr_trimL]

theorem filterBr_drop_lit (lit : List Char) (hlit : lit.filter isBr = [])
    (cs : List Char) (h : lit.isPrefixOf cs) :
    (cs.drop lit.length).filter isBr = cs.filter isBr := by
  rw [List.isPrefixOf_iff_prefix] at h
  obtain ⟨t, rfl⟩ := h
  rw [List.drop_left, List.filter_append, hlit, List.nil_append]

theorem filterBr_dropEnd_lit (lit : List Char) (hlit : lit.filter isBr = [])
    (cs : List Char) (h : lit.isSuffixOf cs) :
    (cs.take (cs.length - lit.length)).filter isBr = cs.filter isBr := by
  rw [List.isSuffixOf_iff_suffix] at h
  obtain ⟨t, rfl⟩ := h
  have h2 : (t ++ lit).length - lit.length = t.length := by simp
  rw [h2, List.take_left, List.filter_append, hlit, List.append_nil]

theorem filterBr_stripFence1 (t : List Char) :
    (stripFence1 t).filter isBr = t.filter isBr := by
  unfold stripFence1
  split_ifs with h
  · exact filterBr_drop_lit ("```json".toList) rfl t h
  · rfl

theorem filterBr_stripFence2 (t : List Char) :
    (stripFence2 t).filter isBr = t.filter isBr := by
  unfold stripFence2
  split_ifs with h
  · exact filterBr_drop_lit ("```".toList) rfl t h
  · rfl

theorem filterBr_stripFence3 (t : List Char) :
    (stripFence3 t).filter isBr = t.filter isBr := by
  unfold stripFence3
  split_ifs with h
  · exact filterBr_dropEnd_lit ("```".toList) rfl t h
  · rfl

/-- Fence stripping never adds or removes a bracket character. -/
theorem filterBr_stripFence (cs : List Char) :
    (stripFence cs).filter isBr = cs.filter isBr := by
  unfold stripFence
  split_ifs with h
  · rw [filterBr_pyStrip, filterBr_stripFence3, filterBr_stripFence2,
      filterBr_stripFence1, filterBr_pyStrip]
  · exact filterBr_pyStrip cs

/-- Filtering to brackets commutes with skipping to the first `[`: the
skipped prefix contains no `[`, so its brackets are exactly the `]`s the
scan never reaches. -/
theorem filterBr_dropToBracket (cs : List Char) :
    ((cs.dropWhile (fun c => !(c = '['))).filter isBr) =
      (cs.filter isBr).dropWhile (fun c => !(c = '[')) := by
  induction cs with
  | nil => rfl
  | cons c rest ih =>
    by_cases h1 : c = '['
    · subst h1
      simp [isBr, List.filter_cons, List.dropWhile_cons]
    · by_cases h2 : c = ']'
      · subst h2
        simp [isBr, List.filter_cons, List.dropWhile_cons, ih]
      · simp [isBr, h1, h2, List.filter_cons, List.dropWhile_cons, ih]

theorem mem_bracket_filterBr (cs : List Char) : '[' ∈ cs ↔ '[' ∈ cs.filter isBr := by
  rw [List.mem_filter]
  simp [isBr]

theorem mem_bracket_stripFence (cs : List Char) : '[' ∈ stripFence cs ↔ '[' ∈ cs := by
  rw [mem_bracket_filterBr, filterBr_stripFence, ← mem_bracket_filterBr]

theorem dropToBracket_eq_nil (cs : List Char) (h : '[' ∉ cs) :
    cs.dropWhile (fun c => !(c = '[')) = [] := by
  induction cs with
  | nil => rfl
  | cons c rest ih =>
    have hc : ¬ c = '[' := fun he => h (he ▸ List.mem_cons_self c rest)
    rw [List.dropWhile_cons_of_pos (by simp [hc])]
    exact ih (fun hm => h (List.mem_cons_of_mem c hm))

theorem dropToBracket_ne_nil (cs : List Char) (h : '[' ∈ cs) :
    cs.dropWhile (fun c => !(c = '[')) ≠ [] := by
  induction cs with
  | nil => cases h
  | cons c rest ih =>
    by_cases hc : c = '['
    · rw [List.dropWhile_cons_of_neg (by simp [hc])]
      simp
    · rw [List.dropWhile_cons_of_pos (by simp [hc])]
      apply ih
      rcases List.mem_cons.mp h with h' | h'
      · exact absurd h'.symm hc
      · exact h'

/-- The scan-never-closes condition transfers from the input text to the
fence-stripped text `extract_json` actually scans. -/
theorem scanCloses_transfer (cs : List Char) :
    scanCloses ((stripFence cs).dropWhile (fun c => !(c = '['))) 0 =
      scanCloses (cs.dropWhile (fun c => !(c = '['))) 0 := by
  rw [← scanCloses_filterBr ((stripFence cs).dropWhile (fun c => !(c = '[')))]
  rw [filterBr_dropToBracket, filterBr_stripFence, ← filterBr_dropToBracket]
  rw [scanCloses_filterBr]

/-- C3: the Extractor fails with `MalformedResponse("no array start")` on
any text containing no `[`; it fails with
`MalformedResponse("unterminated array")` on any text whose bracket depth,
counted from the first `[`, never returns to zero; and nested arrays
inside records do not prematurely close the outer array: extracting from
`[{"a":[1,2]}]` returns the full single-element array. -/
theorem c3_extractor_failures :
    (∀ cs : List Char, '[' ∉ cs → extract_json cs = .error .noArrayStart) ∧
    (∀ cs : List Char, '[' ∈ cs →
      scanCloses (cs.dropWhile (fun c => !(c = '['))) 0 = false →
      extract_json cs = .error .unterminated) ∧
    extract_json ('[' :: '{' :: '"' :: 'a' :: '"' :: ':' :: '[' :: '1' :: ',' :: '2' :: ']' :: '}' :: ']' :: []) =
      .ok (.arr [.obj [("a", .arr [.num 1, .num 2])]]) := by
  refine ⟨?_, ?_, rfl⟩
  · intro cs h
    have hs : '[' ∉ stripFence cs := fun hm => h ((mem_bracket_stripFence cs).mp hm)
    unfold extract_json extractAfter
    rw [dropToBracket_eq_nil _ hs]
    simp
  · intro cs hmem hscan
    have hs : '[' ∈ stripFence cs := (mem_bracket_stripFence cs).mpr hmem
    have hne := dropToBracket_ne_nil _ hs
    have hclose : scanCloses ((stripFence cs).dropWhile (fun c => !(c = '['))) 0 = false := by
      rw [scanCloses_transfer]
      exact hscan
    have hbal : takeBalanced ((stripFence cs).dropWhile (fun c => !(c = '['))) 0 = none :=
      (takeBalanced_eq_none _ 0).mpr hclose
    unfold extract_json extractAfter
    rw [if_neg (by simpa using hne), hbal]

/-- Witness for C3 at concrete inputs: prose without `[` yields the
no-array-start failure; an unclosed array yields the unterminated
failure. -/
theorem c3_witness :
    extract_json ("no array here".toList) = .error .noArrayStart ∧
    extract_json ("x [1, 2".toList) = .error .unterminated :=
  ⟨c3_extractor_failures.1 _ (by decide),
    c3_extractor_failures.2.1 _ (by decide) (by decide)⟩

/-! ## C6: round-trip lemmas — scalars -/

theorem isDigitC_ne (c : Char) (h : isDigitC c = true) (x : Char)
    (hx : isDigitC x = false) : ¬ c = x := by
  intro he
  subst he
  rw [h] at hx
  exact Bool.noConfusion hx

theorem jsonWs_of_digit (c : Char) (h : isDigitC c = true) : jsonWs c = false := by
  have h1 := isDigitC_ne c h ' ' (by decide)
  have h2 := isDigitC_ne c h '\t' (by decide)
  have h3 := isDigitC_ne c h '\n' (by decide)
  have h4 := isDigitC_ne c h '\r' (by decide)
  simp [jsonWs, h1, h2, h3, h4]

theorem skipWs_cons_of_nonws (c : Char) (X : List Char) (h : jsonWs c = false) :
    skipWs (c :: X) = c :: X := by
  simp [skipWs, List.dropWhile_cons, h]

theorem dc_isDigitC (n : Nat) (h : n < 10) : isDigitC (digitChar n) = true := by
  interval_cases n <;> decide

theorem dc_digitVal (n : Nat) (h : n < 10) : digitVal (digitChar n) = n := by
  interval_cases n <;> decide

theorem dc_zero (n : Nat) (h : n < 10) : digitChar n = '0' ↔ n = 0 := by
  interval_cases n <;> simp <;> decide

theorem digitsToNat_concat (ds : List Char) (c : Char) :
    digitsToNat (ds ++ [c]) = digitsToNat ds * 10 + digitVal c := by
  simp [digitsToNat, List.foldl_append]

theorem natDigitsGo_spec : ∀ (fuel n : Nat) (acc : List Char), n < fuel →
    ∃ ds, natDigitsGo fuel n acc = ds ++ acc ∧ ds ≠ [] ∧
      (∀ c ∈ ds, isDigitC c = true) ∧ digitsToNat ds = n ∧
      (ds.head? = some '0' → n = 0) := by
  intro fuel
  induction fuel with
  | zero => intro n acc h; omega
  | succ f ih =>
    intro n acc h
    by_cases h10 : n < 10
    · refine ⟨[digitChar n], by simp [natDigitsGo, h10], by simp, ?_, ?_, ?_⟩
      · intro c hc
        rw [List.mem_singleton] at hc
        subst hc
        exact dc_isDigitC n h10
      · simp [digitsToNat, dc_digitVal n h10]
      · intro h0
        simp only [List.head?_cons, Option.some.injEq] at h0
        exact (dc_zero n h10).mp h0
    · have hlt : n / 10 < f := by omega
      obtain ⟨ds, heq, hne, hdig, hval, hzero⟩ := ih (n / 10) (digitChar (n % 10) :: acc) hlt
      refine ⟨ds ++ [digitChar (n % 10)], ?_, by simp, ?_, ?_, ?_⟩
      · simp [natDigitsGo, h10, heq]
      · intro c hc
        rcases List.mem_append.mp hc with hc | hc
        · exact hdig c hc
        · rw [List.mem_singleton] at hc
          subst hc
          exact dc_isDigitC _ (Nat.mod_lt n (by omega))
      · rw [digitsToNat_concat, hval, dc_digitVal _ (Nat.mod_lt n (by omega))]
        omega
      · intro h0
        cases ds with
        | nil => exact absurd rfl hne
        | cons d t =>
          rw [List.cons_append, List.head?_cons] at h0
          have := hzero (by rw [List.head?_cons]; exact h0)
          omega

theorem natDigits_spec (n : Nat) :
    ∃ ds, natDigits n = ds ∧ ds ≠ [] ∧
      (∀ c ∈ ds, isDigitC c = true) ∧ digitsToNat ds = n ∧
      (ds.head? = some '0' → n = 0) := by
  obtain ⟨ds, heq, hne, hdig, hval, hzero⟩ := natDigitsGo_spec (n + 1) n [] (by omega)
  exact ⟨ds, by simpa [natDigits] using heq, hne, hdig, hval, hzero⟩

theorem takeWhile_append_sat (p : Char → Bool) (l r : List Char)
    (hl : ∀ c ∈ l, p c = true) (hr : ∀ c, r.head? = some c → p c = false) :
    (l ++ r).takeWhile p = l ∧ (l ++ r).dropWhile p = r := by
  induction l with
  | nil =>
    cases r with
    | nil => exact ⟨rfl, rfl⟩
    | cons c t =>
      have hc := hr c rfl
      simp [List.takeWhile_cons, List.dropWhile_cons, hc]
  | cons c t ih =>
    have hc := hl c (List.mem_cons_self c t)
    have iht := ih (fun x hx => hl x (List.mem_cons_of_mem c hx))
    simp [List.takeWhile_cons, List.dropWhile_cons, hc, iht.1, iht.2]

theorem parseNatNum_encode (n : Nat) (rest : List Char)
    (hrest : ∀ c, rest.head? = some c → isDigitC c = false) :
    parseNatNum (natDigits n ++ rest) = some (n, rest) := by
  obtain ⟨ds, heq, hne, hdig, hval, hzero⟩ := natDigits_spec n
  rw [heq]
  obtain ⟨htake, hdrop⟩ := takeWhile_append_sat isDigitC ds rest hdig hrest
  unfold parseNatNum
  rw [htake, hdrop]
  rw [if_neg (by simp [hne])]
  have hlead : (ds.head? = some '0' && ds.length != 1) = false := by
    by_cases hh : ds.head? = some '0'
    · have hn0 : n = 0 := hzero hh
      subst hn0
      have : ds = ['0'] := by
        have : natDigits 0 = ['0'] := rfl
        rw [this] at heq
        exact heq.symm
      subst this
      rfl
    · simp [hh]
  rw [hlead]
  simp [hval]

theorem parseNum_encInt (i : Int) (rest : List Char)
    (hrest : ∀ c, rest.head? = some c → isDigitC c = false) :
    parseNum (encInt i ++ rest) = some (i, rest) := by
  unfold encInt
  split_ifs with hneg
  · show parseNum ('-' :: (natDigits i.natAbs ++ rest)) = _
    unfold parseNum
    rw [if_pos (by rfl)]
    simp only [List.tail_cons]
    rw [parseNatNum_encode i.natAbs rest hrest]
    simp only [Option.some.injEq, Prod.mk.injEq]
    constructor
    · omega
    · trivial
  · obtain ⟨ds, heq, hne, hdig, _, _⟩ := natDigits_spec i.natAbs
    unfold parseNum
    rw [if_neg ?hcond]
    case hcond =>
      rw [heq]
      cases ds with
      | nil => exact absurd rfl hne
      | cons d t =>
        have hd := hdig d (List.mem_cons_self d t)
        have := isDigitC_ne d hd '-' (by decide)
        simp [this]
    rw [parseNatNum_encode i.natAbs rest hrest]
    simp only [Option.some.injEq, Prod.mk.injEq]
    constructor
    · omega
    · trivial

/-! ### String literals -/

theorem parseStr_plain (l : List Char)
    (h : ∀ c ∈ l, 32 ≤ c.toNat ∧ ¬ c = '"' ∧ ¬ c = '\\') (rest : List Char) :
    parseStr (l ++ ('"' :: rest)) = some (l, rest) := by
  induction l with
  | nil =>
    show parseStr ('"' :: rest) = some ([], rest)
    rw [parseStr.eq_def]
    simp
  | cons c t ih =>
    obtain ⟨hc1, hc2, hc3⟩ := h c (List.mem_cons_self c t)
    have hc1' : ¬ c.toNat < 32 := by omega
    have iht := ih (fun x hx => h x (List.mem_cons_of_mem c hx))
    rw [List.cons_append, parseStr.eq_def]
    simp [hc2, hc3, hc1', iht]

theorem parseStr_escape (l : List Char) (h : ∀ c ∈ l, 32 ≤ c.toNat) (rest : List Char) :
    parseStr (escapeChars l ++ ('"' :: rest)) = some (l, rest) := by
  induction l with
  | nil =>
    show parseStr ('"' :: rest) = some ([], rest)
    rw [parseStr.eq_def]
    simp
  | cons c t ih =>
    have hc := h c (List.mem_cons_self c t)
    have iht := ih (fun x hx => h x (List.mem_cons_of_mem c hx))
    by_cases hq : c = '"'
    · subst hq
      show parseStr ('\\' :: '"' :: (escapeChars t ++ ('"' :: rest))) = _
      rw [parseStr.eq_def]
      simp [unescape, iht]
    · by_cases hb : c = '\\'
      · subst hb
        show parseStr ('\\' :: '\\' :: (escapeChars t ++ ('"' :: rest))) = _
        rw [parseStr.eq_def]
        simp [unescape, iht]
      · have hc1' : ¬ c.toNat < 32 := by omega
        have hesc : escapeChars (c :: t) = c :: escapeChars t := by
          simp [escapeChars, hq, hb]
        rw [hesc, List.cons_append, parseStr.eq_def]
        simp [hq, hb, hc1', iht]

/-! ### Values -/

theorem parseVal_null (f : Nat) (rest : List Char) :
    parseVal (f + 1) ("null".toList ++ rest) = some (.null, rest) := by
  show parseVal (f + 1) ('n' :: 'u' :: 'l' :: 'l' :: rest) = some (.null, rest)
  rw [parseVal.eq_def]
  simp [skipWs, List.dropWhile_cons, jsonWs]

theorem parseVal_encStr (f : Nat) (s : String)
    (hs : ∀ c ∈ s.toList, 32 ≤ c.toNat) (rest : List Char) :
    parseVal (f + 1) (encStr s ++ rest) = some (.str s, rest) := by
  have hshape : encStr s ++ rest = '"' :: (escapeChars s.toList ++ ('"' :: rest)) := by
    simp [encStr]
  rw [hshape, parseVal.eq_def]
  simp [skipWs, List.dropWhile_cons, jsonWs, parseStr_escape s.data hs rest]

theorem parseVal_encOptStr (f : Nat) (o : Option String) (ho : wfOpt o = true)
    (rest : List Char) :
    parseVal (f + 1) (encOptStr o ++ rest) = some (jOptStr o, rest) := by
  cases o with
  | none => exact parseVal_null f rest
  | some s =>
    have hs : ∀ c ∈ s.toList, 32 ≤ c.toNat := by
      intro c hc
      have := List.all_eq_true.mp ho c hc
      simp [wfChar] at this
      exact this.1.1
    exact parseVal_encStr f s hs rest

theorem parseVal_encOptInt (f : Nat) (o : Option Int) (rest : List Char)
    (hrest : ∀ c, rest.head? = some c → isDigitC c = false) :
    parseVal (f + 1) (encOptInt o ++ rest) = some (jOptInt o, rest) := by
  cases o with
  | none => exact parseVal_null f rest
  | some i =>
    show parseVal (f + 1) (encInt i ++ rest) = some (.num i, rest)
    by_cases hneg : i < 0
    · have hsh : encInt i ++ rest = '-' :: (natDigits i.natAbs ++ rest) := by
        simp [encInt, hneg]
      have hnum := parseNum_encInt i rest hrest
      rw [hsh] at hnum
      rw [hsh, parseVal.eq_def]
      simp [skipWs, List.dropWhile_cons, jsonWs, hnum]
    · obtain ⟨ds, heq, hne, hdig, _, _⟩ := natDigits_spec i.natAbs
      cases ds with
      | nil => exact absurd rfl hne
      | cons d t =>
        have hd := hdig d (List.mem_cons_self d t)
        have hsh : encInt i ++ rest = d :: (t ++ rest) := by
          simp [encInt, hneg, heq]
        have hnum := parseNum_encInt i rest hrest
        rw [hsh] at hnum
        have e1 := isDigitC_ne d hd '[' (by decide)
        have e2 := isDigitC_ne d hd '{' (by decide)
        have e3 := isDigitC_ne d hd '"' (by decide)
        have e4 := isDigitC_ne d hd 'n' (by decide)
        have e5 := isDigitC_ne d hd 't' (by decide)
        have e6 := isDigitC_ne d hd 'f' (by decide)
        rw [hsh, parseVal.eq_def]
        simp [skipWs, List.dropWhile_cons, jsonWs_of_digit d hd, e1, e2, e3, e4,
          e5, e6, hd, hnum]

/-! ### Object members and records -/

theorem parseMembers_more (g : Nat) (key venc tail rest : List Char) (v : Json)
    (ms : List (String × Json)) (hkey : plainKey key)
    (hval : parseVal g (venc ++ (',' :: tail)) = some (v, ',' :: tail))
    (hrec : parseMembers g tail = some (.obj ms, rest)) :
    parseMembers (g + 1) (memberTail key venc (',' :: tail)) =
      some (.obj ((String.mk key, v) :: ms), rest) := by
  unfold memberTail
  rw [parseMembers.eq_def]
  simp [skipWs, List.dropWhile_cons, jsonWs,
    parseStr_plain key hkey (':' :: (venc ++ (',' :: tail))), hval, hrec]

theorem parseMembers_last (g : Nat) (key venc rest : List Char) (v : Json)
    (hkey : plainKey key)
    (hval : parseVal g (venc ++ ('}' :: rest)) = some (v, '}' :: rest)) :
    parseMembers (g + 1) (memberTail key venc ('}' :: rest)) =
      some (.obj [(String.mk key, v)], rest) := by
  unfold memberTail
  rw [parseMembers.eq_def]
  simp [skipWs, List.dropWhile_cons, jsonWs,
    parseStr_plain key hkey (':' :: (venc ++ ('}' :: rest))), hval]

/-- Components of record well-formedness. -/
theorem wellFormedRecord_parts (r : InferenceRecord) (hr : wellFormedRecord r = true) :
    wfStr r.origin_device_model = true ∧ wfOpt r.mapped_brand = true ∧
      wfOpt r.mapped_device_model = true ∧ wfOpt r.cpu_name = true ∧
      wfOpt r.ram = true ∧ wfOpt r.refresh_rate = true := by
  simp only [wellFormedRecord, Bool.and_eq_true] at hr
  exact ⟨hr.1.1.1.1.1, hr.1.1.1.1.2, hr.1.1.1.2, hr.1.1.2, hr.1.2, hr.2⟩

/-- Opening an object whose first member starts immediately: `parseVal`
hands over to `parseMembers` with one unit of fuel consumed. -/
theorem parseVal_obj (g : Nat) (k venc tail : List Char) :
    parseVal (g + 1) ('{' :: memberTail k venc tail) =
      parseMembers g (memberTail k venc tail) := by
  rw [parseVal.eq_def]
  simp [skipWs, List.dropWhile_cons, jsonWs, memberTail]

/-- Parsing the object text of a well-formed record yields its JSON value
and consumes exactly the object. -/
theorem parseVal_encRec (f : Nat) (r : InferenceRecord)
    (hr : wellFormedRecord r = true) (rest : List Char) :
    parseVal (f + 9) (encRec r ++ rest) = some (recToJson r, rest) := by
  obtain ⟨w1, w2, w3, w4, w5, w6⟩ := wellFormedRecord_parts r hr
  have hs1 : ∀ c ∈ (r.origin_device_model).toList, 32 ≤ c.toNat := by
    intro c hc
    have := List.all_eq_true.mp w1 c hc
    simp [wfChar] at this
    exact this.1.1
  -- the object text with `rest` pushed to the inside
  have hsh : encRec r ++ rest =
      '{' :: memberTail kOrigin (encStr r.origin_device_model) (',' ::
        memberTail kBrand (encOptStr r.mapped_brand) (',' ::
          memberTail kModel (encOptStr r.mapped_device_model) (',' ::
            memberTail kCpuName (encOptStr r.cpu_name) (',' ::
              memberTail kCpuCore (encOptInt r.cpu_core) (',' ::
                memberTail kRam (encOptStr r.ram) (',' ::
                  memberTail kRefresh (encOptStr r.refresh_rate) ('}' :: rest))))))) := by
    simp [encRec, memberTail]
  have hcomma : ∀ (X : List Char) (c : Char), (',' :: X).head? = some c → isDigitC c = false := by
    intro X c hc
    simp at hc
    subst hc
    rfl
  have h7 := parseMembers_last (f + 1) kRefresh (encOptStr r.refresh_rate) rest
    (jOptStr r.refresh_rate) (by decide) (parseVal_encOptStr f _ w6 _)
  have h6 := parseMembers_more (f + 2) kRam (encOptStr r.ram) _ rest
    (jOptStr r.ram) _ (by decide) (parseVal_encOptStr (f + 1) _ w5 _) h7
  have h5 := parseMembers_more (f + 3) kCpuCore (encOptInt r.cpu_core) _ rest
    (jOptInt r.cpu_core) _ (by decide)
    (parseVal_encOptInt (f + 2) _ _ (hcomma _)) h6
  have h4 := parseMembers_more (f + 4) kCpuName (encOptStr r.cpu_name) _ rest
    (jOptStr r.cpu_name) _ (by decide) (parseVal_encOptStr (f + 3) _ w4 _) h5
  have h3 := parseMembers_more (f + 5) kModel (encOptStr r.mapped_device_model) _ rest
    (jOptStr r.mapped_device_model) _ (by decide)
    (parseVal_encOptStr (f + 4) _ w3 _) h4
  have h2 := parseMembers_more (f + 6) kBrand (encOptStr r.mapped_brand) _ rest
    (jOptStr r.mapped_brand) _ (by decide) (parseVal_encOptStr (f + 5) _ w2 _) h3
  have h1 := parseMembers_more (f + 7) kOrigin (encStr r.origin_device_model) _ rest
    (.str r.origin_device_model) _ (by decide)
    (parseVal_encStr (f + 6) _ hs1 _) h2
  rw [hsh, show f + 9 = f + 8 + 1 from rfl, parseVal_obj]
  exact h1

/-! ### Arrays of records -/

theorem parseElems_enc (recs : List InferenceRecord) :
    ∀ (f : Nat) (rest : List Char), recs ≠ [] →
      (∀ r ∈ recs, wellFormedRecord r = true) →
      parseElems (f + 10 * recs.length) (encElems recs ++ rest) =
        some (.arr (recs.map recToJson), rest) := by
  induction recs with
  | nil => intro f rest h _; exact absurd rfl h
  | cons r rs ih =>
    intro f rest _ hwf
    cases rs with
    | nil =>
      have hsh : encElems [r] ++ rest = encRec r ++ (']' :: rest) := by
        simp [encElems]
      rw [hsh, show f + 10 * ([r] : List InferenceRecord).length = f + 9 + 1 from rfl,
        parseElems.eq_def]
      simp [parseVal_encRec f r (hwf r (by simp)) (']' :: rest), skipWs,
        List.dropWhile_cons, jsonWs]
    | cons r2 rs2 =>
      have hwf2 : ∀ x ∈ r2 :: rs2, wellFormedRecord x = true :=
        fun x hx => hwf x (List.mem_cons_of_mem r hx)
      have ihx := ih (f + 9) rest (by simp) hwf2
      simp only [List.length_cons] at ihx
      rw [show f + 9 + 10 * (rs2.length + 1) = f + 10 * (rs2.length + 1) + 9 from by
        omega] at ihx
      have hsh : encElems (r :: r2 :: rs2) ++ rest =
          encRec r ++ (',' :: (encElems (r2 :: rs2) ++ rest)) := by
        simp [encElems]
      rw [hsh, show f + 10 * ((r :: r2 :: rs2 : List InferenceRecord)).length =
          (f + 10 * (rs2.length + 1) + 9) + 1 from by
        simp only [List.length_cons]
        omega, parseElems.eq_def]
      simp [parseVal_encRec (f + 10 * (rs2.length + 1)) r (hwf r (by simp)) _,
        skipWs, List.dropWhile_cons, jsonWs, ihx]

theorem parseVal_encodeRecs (f : Nat) (recs : List InferenceRecord)
    (hwf : ∀ r ∈ recs, wellFormedRecord r = true) (rest : List Char) :
    parseVal (f + 10 * recs.length + 1) (encodeRecs recs ++ rest) =
      some (recsToJson recs, rest) := by
  cases recs with
  | nil =>
    rw [show (encodeRecs [] ++ rest : List Char) = '[' :: (']' :: rest) from rfl,
      show f + 10 * ([] : List InferenceRecord).length + 1 = f + 1 from rfl,
      parseVal.eq_def]
    simp [skipWs, List.dropWhile_cons, jsonWs, recsToJson]
  | cons r rs =>
    have hsh : encodeRecs (r :: rs) ++ rest = '[' :: (encElems (r :: rs) ++ rest) := by
      simp [encodeRecs]
    obtain ⟨Y, hY⟩ : ∃ Y, encElems (r :: rs) ++ rest = '{' :: Y := by
      cases rs <;> simp [encElems, encRec]
    have helems := parseElems_enc (r :: rs) f rest (by simp) hwf
    simp only [List.length_cons] at helems
    rw [hsh, parseVal.eq_def]
    rw [hY] at helems ⊢
    simp [skipWs, List.dropWhile_cons, jsonWs, helems, recsToJson]

theorem encRec_len (r : InferenceRecord) : 10 ≤ (encRec r).length := by
  have hk : kOrigin.length = 19 := rfl
  simp [encRec, memberTail]
  omega

theorem encElems_len (recs : List InferenceRecord) :
    10 * recs.length + 1 ≤ (encElems recs).length := by
  induction recs with
  | nil => simp [encElems]
  | cons r rs ih =>
    cases rs with
    | nil =>
      have := encRec_len r
      simp [encElems]
      omega
    | cons r2 rs2 =>
      have := encRec_len r
      rw [show encElems (r :: r2 :: rs2) = encRec r ++ (',' :: encElems (r2 :: rs2)) from rfl]
      simp only [List.length_append, List.length_cons]
      simp only [List.length_cons] at ih ⊢
      omega

/-- Round trip at the `json.loads` level: parsing the canonical array text
of well-formed records yields exactly their JSON value. -/
theorem parseJson_encodeRecs (recs : List InferenceRecord)
    (hwf : ∀ r ∈ recs, wellFormedRecord r = true) :
    parseJson (encodeRecs recs) = some (recsToJson recs) := by
  unfold parseJson
  have hlen : 10 * recs.length + 1 ≤ (encodeRecs recs).length := by
    have := encElems_len recs
    simp only [encodeRecs, List.length_cons]
    omega
  have h := parseVal_encodeRecs ((encodeRecs recs).length - 10 * recs.length) recs hwf []
  rw [List.append_nil] at h
  rw [show (encodeRecs recs).length + 1 =
      ((encodeRecs recs).length - 10 * recs.length) + 10 * recs.length + 1 from by omega]
  rw [h]
  simp [skipWs]

/-! ### Bracket-freeness of the encoded text -/

theorem noBr_escapeChars (l : List Char) (h : ∀ c ∈ l, wfChar c = true) :
    ∀ c ∈ escapeChars l, isBr c = false := by
  induction l with
  | nil => intro c hc; cases hc
  | cons a t ih =>
    intro c hc
    have ha := h a (List.mem_cons_self a t)
    have ihx := ih (fun x hx => h x (List.mem_cons_of_mem a hx))
    unfold escapeChars at hc
    by_cases h1 : a = '"'
    · rw [if_pos h1] at hc
      rcases List.mem_append.mp hc with hc | hc
      · rcases List.mem_cons.mp hc with rfl | hc
        · rfl
        · rw [List.mem_singleton] at hc
          subst hc
          rfl
      · exact ihx c hc
    · by_cases h2 : a = '\\'
      · rw [if_neg h1, if_pos h2] at hc
        rcases List.mem_append.mp hc with hc | hc
        · rcases List.mem_cons.mp hc with rfl | hc
          · rfl
          · rw [List.mem_singleton] at hc
            subst hc
            rfl
        · exact ihx c hc
      · rw [if_neg h1, if_neg h2] at hc
        rcases List.mem_append.mp hc with hc | hc
        · rw [List.mem_singleton] at hc
          subst hc
          simp only [wfChar, Bool.and_eq_true] at ha
          obtain ⟨⟨_, hA1⟩, hA2⟩ := ha
          simp only [Bool.not_eq_eq_eq_not, Bool.not_false, decide_eq_true_eq] at hA1 hA2
          simp [isBr, hA1, hA2]
        · exact ihx c hc

theorem noBr_digit (c : Char) (h : isDigitC c = true) : isBr c = false := by
  have h1 := isDigitC_ne c h '[' (by decide)
  have h2 := isDigitC_ne c h ']' (by decide)
  simp [isBr, h1, h2]

theorem noBr_encStr (s : String) (h : wfStr s = true) :
    ∀ c ∈ encStr s, isBr c = false := by
  intro c hc
  unfold encStr at hc
  rcases List.mem_cons.mp hc with rfl | hc
  · rfl
  · rcases List.mem_append.mp hc with hc | hc
    · exact noBr_escapeChars s.toList (List.all_eq_true.mp h) c hc
    · rw [List.mem_singleton] at hc
      subst hc
      rfl

theorem noBr_encOptStr (o : Option String) (h : wfOpt o = true) :
    ∀ c ∈ encOptStr o, isBr c = false := by
  cases o with
  | none => intro c hc; simp [encOptStr] at hc; rcases hc with rfl | rfl | rfl | rfl <;> rfl
  | some s => exact noBr_encStr s h

theorem noBr_encOptInt (o : Option Int) : ∀ c ∈ encOptInt o, isBr c = false := by
  cases o with
  | none => intro c hc; simp [encOptInt] at hc; rcases hc with rfl | rfl | rfl | rfl <;> rfl
  | some i =>
    intro c hc
    rw [show encOptInt (some i) = encInt i from rfl] at hc
    unfold encInt at hc
    obtain ⟨ds, heq, _, hdig, _, _⟩ := natDigits_spec i.natAbs
    split_ifs at hc
    · rcases List.mem_cons.mp hc with rfl | hc
      · rfl
      · rw [heq] at hc
        exact noBr_digit c (hdig c hc)
    · rw [heq] at hc
      exact noBr_digit c (hdig c hc)

theorem noBr_memberTail (key venc tail : List Char)
    (hkey : ∀ c ∈ key, isBr c = false) (hv : ∀ c ∈ venc, isBr c = false)
    (ht : ∀ c ∈ tail, isBr c = false) :
    ∀ c ∈ memberTail key venc tail, isBr c = false := by
  intro c hc
  unfold memberTail at hc
  rcases List.mem_cons.mp hc with rfl | hc
  · rfl
  · rcases List.mem_append.mp hc with hc | hc
    · exact hkey c hc
    · rcases List.mem_cons.mp hc with rfl | hc
      · rfl
      · rcases List.mem_cons.mp hc with rfl | hc
        · rfl
        · rcases List.mem_append.mp hc with hc | hc
          · exact hv c hc
          · exact ht c hc

theorem noBr_encRec (r : InferenceRecord) (hr : wellFormedRecord r = true) :
    ∀ c ∈ encRec r, isBr c = false := by
  obtain ⟨w1, w2, w3, w4, w5, w6⟩ := wellFormedRecord_parts r hr
  intro c hc
  unfold encRec at hc
  rcases List.mem_cons.mp hc with rfl | hc
  · rfl
  · refine noBr_memberTail _ _ _ (by decide) (noBr_encStr _ w1) ?_ c hc
    intro c hc
    rcases List.mem_cons.mp hc with rfl | hc
    · rfl
    · refine noBr_memberTail _ _ _ (by decide) (noBr_encOptStr _ w2) ?_ c hc
      intro c hc
      rcases List.mem_cons.mp hc with rfl | hc
      · rfl
      · refine noBr_memberTail _ _ _ (by decide) (noBr_encOptStr _ w3) ?_ c hc
        intro c hc
        rcases List.mem_cons.mp hc with rfl | hc
        · rfl
        · refine noBr_memberTail _ _ _ (by decide) (noBr_encOptStr _ w4) ?_ c hc
          intro c hc
          rcases List.mem_cons.mp hc with rfl | hc
          · rfl
          · refine noBr_memberTail _ _ _ (by decide) (noBr_encOptInt _) ?_ c hc
            intro c hc
            rcases List.mem_cons.mp hc with rfl | hc
            · rfl
            · refine noBr_memberTail _ _ _ (by decide) (noBr_encOptStr _ w5) ?_ c hc
              intro c hc
              rcases List.mem_cons.mp hc with rfl | hc
              · rfl
              · refine noBr_memberTail _ _ _ (by decide) (noBr_encOptStr _ w6) ?_ c hc
                intro c hc
                rcases List.mem_cons.mp hc with rfl | hc
                · rfl
                · cases hc

/-- The element text of a well-formed record list is bracket-free except
for its final `]`. -/
theorem encElems_shape (recs : List InferenceRecord)
    (hwf : ∀ r ∈ recs, wellFormedRecord r = true) :
    ∃ mid, encElems recs = mid ++ [']'] ∧ ∀ c ∈ mid, isBr c = false := by
  induction recs with
  | nil => exact ⟨[], rfl, by simp⟩
  | cons r rs ih =>
    cases rs with
    | nil => exact ⟨encRec r, rfl, noBr_encRec r (hwf r (by simp))⟩
    | cons r2 rs2 =>
      obtain ⟨mid, heq, hmid⟩ := ih (fun x hx => hwf x (List.mem_cons_of_mem r hx))
      refine ⟨encRec r ++ (',' :: mid), ?_, ?_⟩
      · rw [show encElems (r :: r2 :: rs2) = encRec r ++ (',' :: encElems (r2 :: rs2)) from rfl,
          heq]
        simp
      · intro c hc
        rcases List.mem_append.mp hc with hc | hc
        · exact noBr_encRec r (hwf r (by simp)) c hc
        · rcases List.mem_cons.mp hc with rfl | hc
          · rfl
          · exact hmid c hc

/-! ### The scan isolates the encoded array -/

theorem takeBalanced_mid (B : List Char) :
    ∀ mid, (∀ c ∈ mid, isBr c = false) →
      takeBalanced (mid ++ (']' :: B)) 1 = some (mid ++ [']']) := by
  intro mid
  induction mid with
  | nil =>
    intro _
    show takeBalanced (']' :: B) 1 = some [']']
    unfold takeBalanced
    rw [if_neg (by decide), if_pos rfl, if_pos rfl]
  | cons c t ih =>
    intro h
    have hc := h c (List.mem_cons_self c t)
    simp only [isBr, Bool.or_eq_false_iff, decide_eq_false_iff_not] at hc
    rw [List.cons_append]
    unfold takeBalanced
    rw [if_neg hc.1, if_neg hc.2, ih (fun x hx => h x (List.mem_cons_of_mem c hx))]
    simp

theorem takeBalanced_enc (mid B : List Char) (hmid : ∀ c ∈ mid, isBr c = false) :
    takeBalanced ('[' :: (mid ++ (']' :: B))) 0 = some ('[' :: (mid ++ [']'])) := by
  unfold takeBalanced
  rw [if_pos rfl, takeBalanced_mid B mid hmid]

theorem dropToBracket_append (A X : List Char) (hA : '[' ∉ A) :
    (A ++ ('[' :: X)).dropWhile (fun c => !(c = '[')) = '[' :: X := by
  induction A with
  | nil =>
    rw [List.nil_append, List.dropWhile_cons_of_neg (by simp)]
  | cons a t ih =>
    have ha : ¬ a = '[' := fun he => hA (he ▸ List.mem_cons_self a t)
    rw [List.cons_append, List.dropWhile_cons_of_pos (by simp [ha])]
    exact ih (fun hm => hA (List.mem_cons_of_mem a hm))

/-- Extraction on text of the form `junk [array-without-brackets] junk`:
the scan returns exactly the array text, which is then parsed. -/
theorem extractAfter_shape (A mid B : List Char) (hA : '[' ∉ A)
    (hmid : ∀ c ∈ mid, isBr c = false) :
    extractAfter (A ++ ('[' :: (mid ++ (']' :: B)))) =
      (match parseJson ('[' :: (mid ++ [']'])) with
        | none => .error .parseError
        | some v => .ok v) := by
  unfold extractAfter
  rw [dropToBracket_append A _ hA]
  rw [if_neg (by simp), takeBalanced_enc mid B hmid]

/-! ### Fence stripping on the wrapped template -/

theorem trimL_cons_nonws (c : Char) (X : List Char) (h : pyWs c = false) :
    trimL (c :: X) = c :: X := by
  simp [trimL, List.dropWhile_cons, h]

theorem dropWhile_ws_append (a : List Char) (c : Char) (X : List Char)
    (hc : pyWs c = false) :
    (a ++ (c :: X)).dropWhile pyWs = a.dropWhile pyWs ++ (c :: X) := by
  induction a with
  | nil => simp [List.dropWhile_cons, hc]
  | cons a0 t ih =>
    by_cases h0 : pyWs a0 = true
    · rw [List.cons_append, List.dropWhile_cons_of_pos h0, ih,
        List.dropWhile_cons_of_pos h0]
    · rw [List.cons_append, List.dropWhile_cons_of_neg (by simp_all),
        List.dropWhile_cons_of_neg (by simp_all)]
      simp

theorem trimL_append_nonws (a : List Char) (c : Char) (X : List Char)
    (hc : pyWs c = false) :
    trimL (a ++ (c :: X)) = trimL a ++ (c :: X) :=
  dropWhile_ws_append a c X hc

theorem trimR_append_nonws (V : List Char) (c : Char) (Z : List Char)
    (hc : pyWs c = false) :
    trimR (V ++ (c :: Z)) = V ++ (c :: trimR Z) := by
  unfold trimR
  rw [List.reverse_append, List.reverse_cons]
  rw [show Z.reverse ++ [c] ++ V.reverse = Z.reverse ++ (c :: V.reverse) from by simp]
  rw [dropWhile_ws_append Z.reverse c V.reverse hc]
  rw [List.reverse_append, List.reverse_cons, List.reverse_reverse]
  simp

theorem isPrefixOf_append_self (l t : List Char) : l.isPrefixOf (l ++ t) = true := by
  simp

theorem isSuffixOf_append_self (l t : List Char) : l.isSuffixOf (t ++ l) = true := by
  simp

theorem sf1_tag (X : List Char) : stripFence1 ("```json\n".toList ++ X) = '\n' :: X := by
  unfold stripFence1
  rw [show ("```json\n".toList ++ X : List Char) = "```json".toList ++ ('\n' :: X) from rfl]
  rw [if_pos (isPrefixOf_append_self _ _)]
  exact List.drop_left' rfl

theorem sf2_newline (X : List Char) : stripFence2 ('\n' :: X) = '\n' :: X := by
  unfold stripFence2
  have h : ("```".toList).isPrefixOf ('\n' :: X) = false := rfl
  rw [if_neg (by simp [h])]

theorem sf3_fence (X : List Char) : stripFence3 (X ++ "```".toList) = X := by
  unfold stripFence3
  rw [if_pos (isSuffixOf_append_self _ _)]
  have h3 : (X ++ "```".toList).length - 3 = X.length := by simp
  rw [h3, List.take_left]

set_option maxRecDepth 8192 in
/-- Counterexample to C6 as stated: with the prefix `"[0] "` — arbitrary
text is allowed by the claim — the scan anchors on the prefix's `[` and
extraction returns `[0]`, not the serialized records. -/
theorem c6_counterexample :
    extract_json ("```json\n".toList ++ "[0] ".toList ++ encodeRecs [sampleRecord] ++
        "\n```".toList) = .ok (.arr [.num 0]) ∧
      Json.arr [.num 0] ≠ recsToJson [sampleRecord] := by
  constructor
  · rfl
  · intro h
    simp [recsToJson, recToJson] at h

/-- C6 (amended): serializing any list of well-formed records (string
fields printable and bracket-free), wrapping the text in a fenced code
block with any prefix text containing no `[` and arbitrary suffix text,
and extracting, yields exactly the original records (as the JSON array of
their values, in order). -/
theorem c6_roundtrip_amended (recs : List InferenceRecord) (pre suf : List Char)
    (hwf : ∀ r ∈ recs, wellFormedRecord r = true) (hpre : '[' ∉ pre) :
    extract_json ("```json\n".toList ++ pre ++ encodeRecs recs ++ suf ++ "\n```".toList) =
      .ok (recsToJson recs) := by
  obtain ⟨mid, hmidEq, hmid⟩ := encElems_shape recs hwf
  have henc : encodeRecs recs = '[' :: (mid ++ [']']) := by
    rw [encodeRecs, hmidEq]
  have htmpl : "```json\n".toList ++ pre ++ encodeRecs recs ++ suf ++ "\n```".toList =
      "```json\n".toList ++ (pre ++ (('[' :: (mid ++ [']'])) ++ (suf ++ "\n```".toList))) := by
    rw [henc]
    simp [List.append_assoc]
  rw [htmpl]
  have hTcons : "```json\n".toList ++ (pre ++ (('[' :: (mid ++ [']'])) ++ (suf ++ "\n```".toList))) =
      backquoteChar :: ("``json\n".toList ++ (pre ++ (('[' :: (mid ++ [']'])) ++ (suf ++ "\n```".toList)))) := rfl
  have hTsplit : "```json\n".toList ++ (pre ++ (('[' :: (mid ++ [']'])) ++ (suf ++ "\n```".toList))) =
      ("```json\n".toList ++ (pre ++ (('[' :: (mid ++ [']'])) ++ (suf ++ "\n``".toList)))) ++ (backquoteChar :: []) := by
    rw [show ("\n```".toList : List Char) = "\n``".toList ++ (backquoteChar :: []) from rfl]
    simp [List.append_assoc]
  have hstrip : pyStrip ("```json\n".toList ++ (pre ++ (('[' :: (mid ++ [']'])) ++ (suf ++ "\n```".toList)))) =
      "```json\n".toList ++ (pre ++ (('[' :: (mid ++ [']'])) ++ (suf ++ "\n```".toList))) := by
    unfold pyStrip
    rw [show trimL ("```json\n".toList ++ (pre ++ (('[' :: (mid ++ [']'])) ++ (suf ++ "\n```".toList)))) =
        "```json\n".toList ++ (pre ++ (('[' :: (mid ++ [']'])) ++ (suf ++ "\n```".toList))) from by
      rw [hTcons]
      exact trimL_cons_nonws _ _ rfl]
    rw [hTsplit, trimR_append_nonws
      ("```json\n".toList ++ (pre ++ (('[' :: (mid ++ [']'])) ++ (suf ++ "\n``".toList))))
      backquoteChar [] (by decide)]
    rfl
  have hpfx : ("```".toList).isPrefixOf
      ("```json\n".toList ++ (pre ++ (('[' :: (mid ++ [']'])) ++ (suf ++ "\n```".toList)))) = true := by
    rw [show ("```json\n".toList ++ (pre ++ (('[' :: (mid ++ [']'])) ++ (suf ++ "\n```".toList))) : List Char) =
      "```".toList ++ ("json\n".toList ++ (pre ++ (('[' :: (mid ++ [']'])) ++ (suf ++ "\n```".toList)))) from rfl]
    exact isPrefixOf_append_self _ _
  have hsplit3 : ('\n' :: (pre ++ (('[' :: (mid ++ [']'])) ++ (suf ++ "\n```".toList))) : List Char) =
      ('\n' :: (pre ++ (('[' :: (mid ++ [']'])) ++ (suf ++ ('\n' :: []))))) ++ "```".toList := by
    rw [show ("\n```".toList : List Char) = ('\n' :: []) ++ "```".toList from rfl]
    simp [List.append_assoc]
  have hV : (trimL pre ++ ('[' :: ((mid ++ [']']) ++ (suf ++ ('\n' :: [])))) : List Char) =
      (trimL pre ++ ('[' :: mid)) ++ (']' :: (suf ++ ('\n' :: []))) := by
    simp [List.append_assoc]
  have hstrip2 : pyStrip ('\n' :: (pre ++ (('[' :: (mid ++ [']'])) ++ (suf ++ ('\n' :: []))))) =
      (trimL pre ++ ('[' :: mid)) ++ (']' :: trimR (suf ++ ('\n' :: []))) := by
    unfold pyStrip
    rw [show trimL ('\n' :: (pre ++ (('[' :: (mid ++ [']'])) ++ (suf ++ ('\n' :: []))))) =
        trimL (pre ++ ('[' :: ((mid ++ [']']) ++ (suf ++ ('\n' :: []))))) from by
      simp [trimL, List.dropWhile_cons, pyWs]]
    rw [trimL_append_nonws pre '[' ((mid ++ [']']) ++ (suf ++ ('\n' :: []))) (by decide), hV,
      trimR_append_nonws (trimL pre ++ ('[' :: mid)) ']' (suf ++ ('\n' :: [])) (by decide)]
  have hsf : stripFence ("```json\n".toList ++ (pre ++ (('[' :: (mid ++ [']'])) ++ (suf ++ "\n```".toList)))) =
      trimL pre ++ ('[' :: (mid ++ (']' :: trimR (suf ++ ('\n' :: []))))) := by
    unfold stripFence
    rw [hstrip, if_pos hpfx, sf1_tag, sf2_newline, hsplit3, sf3_fence, hstrip2]
    simp [List.append_assoc]
  have hA : '[' ∉ trimL pre := by
    intro hm
    exact hpre ((List.dropWhile_sublist pyWs).subset hm)
  show extractAfter _ = _
  rw [hsf, extractAfter_shape (trimL pre) mid (trimR (suf ++ ('\n' :: []))) hA hmid,
    ← henc, parseJson_encodeRecs recs hwf]

/-- Witness for C6 at a concrete input: one well-formed record wrapped in
prose and a fence extracts back to exactly that record. -/
theorem c6_witness :
    extract_json ("```json\n".toList ++ "Answer: ".toList ++ encodeRecs [sampleRecord] ++
        " done".toList ++ "\n```".toList) = .ok (recsToJson [sampleRecord]) :=
  c6_roundtrip_amended [sampleRecord] ("Answer: ".toList) (" done".toList)
    (by decide) (by decide)

end DeviceMapping
